import Mathlib

/-
Verification of the MachineDeployment reconciliation algorithm of the
cluster-api repository: the rolling-update rollout strategy, proportional
scale coordination between old and new node-group generations ("machine
sets"), revision-history pruning and validation handling.  The repository
snapshot ships only the controller's test (`TestReconcile`), so the
controller itself is modelled from the specification, definition by
definition, and the claims are settled against that model.
-/

namespace MachineDeployment

/-- Modelled from the spec: a surge/unavailable bound is "a tagged variant
`Absolute(int) | Percent(int)`" (design note on percentage-or-absolute
bound fields of `maxSurge`/`maxUnavailable`). -/
inductive Bound where
  | absolute : Nat → Bound
  | percent : Nat → Bound
deriving Repr, DecidableEq

/-- Modelled from the spec: the deployment strategy is
`RollingUpdate{maxSurge, maxUnavailable} | Recreate` (data model of
`Deployment.strategy`); the strategy payload carries the two bounds. -/
inductive Strategy where
  | rollingUpdate : Bound → Bound → Strategy
  | recreate : Strategy
deriving Repr, DecidableEq

/-- Modelled from the spec: a Generation (node-group snapshot, a machine
set): immutable template fingerprint label, owner reference to exactly one
deployment, inherited selector, mutable replica target, status
`{replicas, availableReplicas}` and a creation timestamp used for
ordering and tie-breaks.  Templates are identified by their fingerprint,
so the fingerprint stands in for the template itself. -/
structure Generation where
  id : Nat
  owner : Nat
  selector : Nat
  fingerprint : Nat
  replicas : Nat
  statusReplicas : Nat
  statusAvailable : Nat
  creationTime : Nat
deriving Repr, DecidableEq

/-- Modelled from the spec: a Deployment's desired spec: template
fingerprint input, target replica count R, strategy, revision history
limit and selector (data-model section). -/
structure MDeployment where
  name : Nat
  fingerprint : Nat
  replicas : Nat
  strategy : Strategy
  revisionHistoryLimit : Nat
  selector : Nat
deriving Repr, DecidableEq

/-- Modelled from the spec: percentage resolution of `maxSurge` rounds up
("surge may round up for faster convergence"); an absolute bound is taken
as is. -/
def resolveSurge : Bound → Nat → Nat
  | .absolute n, _ => n
  | .percent p, r => (p * r + 99) / 100

/-- Modelled from the spec: percentage resolution of `maxUnavailable`
rounds down ("never let unavailable round to exceed the intended
fraction"); an absolute bound is taken as is. -/
def resolveUnavailable : Bound → Nat → Nat
  | .absolute n, _ => n
  | .percent p, r => p * r / 100

/-- Resolved surge amount of a deployment (0 under Recreate, which never
permits a concurrent surge). -/
def surgeOf (d : MDeployment) : Nat :=
  match d.strategy with
  | .rollingUpdate ms _ => resolveSurge ms d.replicas
  | .recreate => 0

/-- Resolved unavailable amount of a deployment (0 under Recreate). -/
def unavailOf (d : MDeployment) : Nat :=
  match d.strategy with
  | .rollingUpdate _ mu => resolveUnavailable mu d.replicas
  | .recreate => 0

/-- The generations whose fingerprint matches the deployment's current
template fingerprint ("new" generations; at most one in normal states). -/
def newGens (d : MDeployment) (gens : List Generation) : List Generation :=
  gens.filter (fun g => g.fingerprint == d.fingerprint)

/-- The generations whose fingerprint differs from the deployment's
current template fingerprint ("old" generations). -/
def oldGens (d : MDeployment) (gens : List Generation) : List Generation :=
  gens.filter (fun g => g.fingerprint != d.fingerprint)

/-- Sum of the replica targets of a list of generations. -/
def totalTargets (gens : List Generation) : Nat :=
  (gens.map (fun g => g.replicas)).sum

/-- Sum of the status `availableReplicas` of a list of generations. -/
def totalAvailable (gens : List Generation) : Nat :=
  (gens.map (fun g => g.statusAvailable)).sum

/-- Creation-time order on generations (oldest first). -/
def timeLe (a b : Generation) : Prop := a.creationTime ≤ b.creationTime

instance : DecidableRel timeLe := fun a b => Nat.decLe a.creationTime b.creationTime

instance : IsTotal Generation timeLe := ⟨fun _ _ => Nat.le_total _ _⟩

instance : IsTrans Generation timeLe := ⟨fun _ _ _ => Nat.le_trans⟩

/-- Replica-target order on generations (smallest target first, used by
the remainder assignment of the proportional scale-down). -/
def targetLe (a b : Generation) : Prop := a.replicas ≤ b.replicas

instance : DecidableRel targetLe := fun a b => Nat.decLe a.replicas b.replicas

instance : IsTotal Generation targetLe := ⟨fun _ _ => Nat.le_total _ _⟩

instance : IsTrans Generation targetLe := ⟨fun _ _ _ => Nat.le_trans⟩

/-- Modelled from the spec: invariant-violation handling: when more than
one generation matches the current fingerprint, deterministically pick the
oldest by creation time as the canonical "new" generation; `none` when no
generation matches. -/
def pickNewGen (d : MDeployment) (gens : List Generation) : Option Generation :=
  match List.insertionSort timeLe (newGens d gens) with
  | [] => none
  | g :: _ => some g

/-- Modelled from the spec: the generation the Generation Manager creates
when no fingerprint matches: replica target 0, owner reference to the
deployment, the disambiguating fingerprint label, and the deployment's
selector. -/
def freshGen (d : MDeployment) (freshId freshTime : Nat) : Generation :=
  { id := freshId, owner := d.name, selector := d.selector,
    fingerprint := d.fingerprint, replicas := 0, statusReplicas := 0,
    statusAvailable := 0, creationTime := freshTime }

/-- Modelled from the spec: `EnsureGeneration(deployment, generations)`:
if a generation with matching fingerprint exists, return it (together with
the unchanged generation list and a create count of 0); otherwise create
one with replica target 0, owner reference and fingerprint label (create
count 1).  Identity is fingerprint-keyed, so a retry finds the created
generation and performs no second create. -/
def ensureGeneration (d : MDeployment) (gens : List Generation)
    (freshId freshTime : Nat) : Generation × List Generation × Nat :=
  match pickNewGen d gens with
  | some g => (g, gens, 0)
  | none => (freshGen d freshId freshTime, gens ++ [freshGen d freshId freshTime], 1)

/-- Modelled from the spec: remainder assignment of the proportional
scale-down: "assign any remainder one unit at a time to generations in
ascending order of current replica target", never pushing an individual
decrement past the generation's current target (so every new target is
clamped at a minimum of zero).  The list is already sorted ascending by
current replica target; each pair carries a generation and its decrement
so far. -/
def assignExtras : Nat → List (Generation × Nat) → List (Generation × Nat)
  | _, [] => []
  | 0, ps => ps
  | r + 1, p :: ps =>
      if p.2 < p.1.replicas then (p.1, p.2 + 1) :: assignExtras r ps
      else p :: assignExtras (r + 1) ps

/-- Modelled from the spec: step 4 of the RollingUpdate strategy:
"Distribute the scale-down budget across eligible old generations
proportionally to each one's current replica target relative to the
old-generation total; apply integer rounding by truncation, then assign
any remainder one unit at a time to generations in ascending order of
current replica target, clamping every individual target at a minimum of
zero."  Returns each old generation paired with its decrement. -/
def scaleDownDistribution (olds : List Generation) (budget : Nat) :
    List (Generation × Nat) :=
  let total := totalTargets olds
  let sorted := List.insertionSort targetLe olds
  let base := sorted.map (fun g => (g, g.replicas * budget / total))
  let rem := budget - (base.map (fun p => p.2)).sum
  assignExtras rem base

/-- Modelled from the spec: the validation error surfaced as a status
condition when surge and unavailable both resolve to zero with a pending
template change and R > 0. -/
inductive RCondition where
  | invalidStrategy : RCondition
deriving Repr, DecidableEq

/-- Modelled from the spec: requeue classes of the error-handling design:
no requeue, exponential backoff for transient errors, and a long
non-aggressive backoff for validation errors. -/
inductive RequeueKind where
  | noRequeue : RequeueKind
  | exponentialBackoff : RequeueKind
  | longBackoff : RequeueKind
deriving Repr, DecidableEq

/-- Modelled from the spec: a validation error is "surfaced via a status
condition; requeue with a long, non-aggressive backoff since retries
cannot self-heal a static spec error". -/
def requeueAfter : Option RCondition → RequeueKind
  | some .invalidStrategy => .longBackoff
  | none => .noRequeue

/-- Result of one Rolling Scaler step: the (possibly re-targeted) new
generation, the (possibly re-targeted) old generations, the number of
update calls issued, and the validation condition if the strategy is
invalid. -/
def scaleStep (d : MDeployment) (newG : Generation) (olds : List Generation) :
    Generation × List Generation × Nat × Option RCondition :=
  match d.strategy with
  | .recreate =>
      let olds1 := olds.map (fun g => { g with replicas := 0 })
      let zeroCount := (olds.filter (fun g => g.replicas != 0)).length
      if olds.all (fun g => g.statusReplicas == 0) then
        ({ newG with replicas := d.replicas }, olds1,
          zeroCount + (if newG.replicas != d.replicas then 1 else 0), none)
      else
        (newG, olds1, zeroCount, none)
  | .rollingUpdate ms mu =>
      let r := d.replicas
      let surge := resolveSurge ms r
      let unavail := resolveUnavailable mu r
      if olds.all (fun g => g.replicas == 0) then
        ({ newG with replicas := r }, olds,
          (if newG.replicas != r then 1 else 0), none)
      else if surge = 0 ∧ unavail = 0 ∧ r ≠ 0 then
        (newG, olds, 0, some .invalidStrategy)
      else
        let total := totalTargets olds + newG.replicas
        let target1 :=
          if total < r + surge then min (newG.replicas + (r + surge - total)) r
          else newG.replicas
        let budget := total - r
        if newG.replicas ≤ newG.statusAvailable ∧ 0 < budget then
          let pairs := scaleDownDistribution olds budget
          ({ newG with replicas := target1 },
            pairs.map (fun p => { p.1 with replicas := p.1.replicas - p.2 }),
            (if newG.replicas != target1 then 1 else 0) +
              (pairs.filter (fun p => p.2 != 0)).length,
            none)
        else
          ({ newG with replicas := target1 }, olds,
            (if newG.replicas != target1 then 1 else 0), none)

/-- Modelled from the spec: a prune candidate is an old generation "with
replica target 0 and actual status replicas 0". -/
def isPruneCandidate (g : Generation) : Bool :=
  g.replicas == 0 && g.statusReplicas == 0

/-- Modelled from the spec: the Revision Pruner: "Sort candidates
oldest-first by creation time; delete from the front until
`count(remaining old generations) <= revisionHistoryLimit`.  Never deletes
a generation still referenced as new, nor one with non-zero target or
actual replicas."  Returns the kept old generations and the deleted
ones. -/
def pruneRevisions (limit : Nat) (olds : List Generation) :
    List Generation × List Generation :=
  let cand := List.insertionSort timeLe (olds.filter isPruneCandidate)
  let keep := olds.filter (fun g => !isPruneCandidate g)
  let delCount := min (olds.length - limit) cand.length
  (keep ++ cand.drop delCount, cand.take delCount)

/-- Outcome of one reconcile invocation: the canonical new generation, the
resulting generation list, and the counts of create, update and delete
calls issued, plus the surfaced status condition if any. -/
structure ReconcileOut where
  newGen : Generation
  gens : List Generation
  createCount : Nat
  updateCount : Nat
  deleteCount : Nat
  condition : Option RCondition
deriving Repr, DecidableEq

/-- Scaler plus pruner applied after the Generation Manager has singled
out the canonical new generation; on a validation error the pass stops
without scaling or pruning. -/
def rollAfterEnsure (d : MDeployment) (newG : Generation)
    (olds : List Generation) (created : Nat) : ReconcileOut :=
  let s := scaleStep d newG olds
  match s.2.2.2 with
  | some c =>
      { newGen := newG, gens := newG :: olds, createCount := created,
        updateCount := 0, deleteCount := 0, condition := some c }
  | none =>
      let pr := pruneRevisions d.revisionHistoryLimit s.2.1
      { newGen := s.1, gens := s.1 :: pr.1, createCount := created,
        updateCount := s.2.2.1, deleteCount := pr.2.length, condition := none }

/-- Modelled from the spec: one reconcile invocation of the desired-state
reconciler: ensure the new generation exists (Generation Manager), run one
incremental scale step (Rolling Scaler), prune empty old revisions
(Revision Pruner) and return.  `freshId` and `freshTime` name the identity
and creation time used when a generation has to be created. -/
def reconcile (d : MDeployment) (gens : List Generation)
    (freshId freshTime : Nat) : ReconcileOut :=
  match pickNewGen d gens with
  | some g => rollAfterEnsure d g (gens.erase g) 0
  | none => rollAfterEnsure d (freshGen d freshId freshTime) gens 1

/-- Modelled from the spec: between reconcile invocations the external
provisioner moves a generation's actual status toward its replica target:
machines are created up to the target and deleted down to it, so observed
status counts move monotonically toward the target and never overshoot in
either direction.  Spec, identity and creation time never change. -/
def statusMove (g g1 : Generation) : Prop :=
  g1.id = g.id ∧ g1.owner = g.owner ∧ g1.selector = g.selector ∧
  g1.fingerprint = g.fingerprint ∧ g1.creationTime = g.creationTime ∧
  g1.replicas = g.replicas ∧
  min g.statusAvailable g.replicas ≤ g1.statusAvailable ∧
  g1.statusAvailable ≤ max g.statusAvailable g.replicas ∧
  min g.statusReplicas g.replicas ≤ g1.statusReplicas ∧
  g1.statusReplicas ≤ max g.statusReplicas g.replicas

/-- Modelled from the spec: the observable transition relation of one
deployment's control loop: either one reconcile invocation rewrites the
generation list, or the environment moves one generation's status toward
its target. -/
inductive Step (d : MDeployment) : List Generation → List Generation → Prop
  | reconcileStep (gens : List Generation) (freshId freshTime : Nat) :
      Step d gens (reconcile d gens freshId freshTime).gens
  | envStep (l r : List Generation) (g g1 : Generation) (h : statusMove g g1) :
      Step d (l ++ g :: r) (l ++ g1 :: r)

/-- The deployment of the rolling-update scenario: R = 2,
maxUnavailable = 0, maxSurge = 1, revision history limit 0, template
fingerprint 2 (the old generation was stamped from fingerprint 1). -/
def dScenario : MDeployment :=
  { name := 1, fingerprint := 2, replicas := 2,
    strategy := .rollingUpdate (.absolute 1) (.absolute 0),
    revisionHistoryLimit := 0, selector := 7 }

/-- The old generation of the scenario (fingerprint 1) at target `t`,
available `a`, status replicas `sr`. -/
def oldGenAt (t a sr : Nat) : Generation :=
  { id := 10, owner := 1, selector := 7, fingerprint := 1, replicas := t,
    statusReplicas := sr, statusAvailable := a, creationTime := 1 }

/-- The new generation of the scenario (fingerprint 2, matching
`dScenario`) at target `t`, available `a`, status replicas `sr`. -/
def newGenAt (t a sr : Nat) : Generation :=
  { id := 11, owner := 1, selector := 7, fingerprint := 2, replicas := t,
    statusReplicas := sr, statusAvailable := a, creationTime := 5 }

/-- The Recreate exclusion property: whenever the generation matching the
deployment's fingerprint (the "new" one) has a positive replica target,
every non-matching (old) generation has replica target 0 — old and new
are never simultaneously scaled. -/
def RecInv (d : MDeployment) (gens : List Generation) : Prop :=
  ∀ g ∈ gens, g.fingerprint = d.fingerprint → 0 < g.replicas →
    ∀ x ∈ gens, x.fingerprint ≠ d.fingerprint → x.replicas = 0

instance (d : MDeployment) (gens : List Generation) : Decidable (RecInv d gens) := by
  unfold RecInv
  infer_instance

/-- Contribution of the new generation(s) to guaranteed availability: the
part of the status availability that is backed by the replica target. -/
def newContrib (d : MDeployment) (gens : List Generation) : Nat :=
  ((newGens d gens).map (fun g => min g.replicas g.statusAvailable)).sum

/-- The inductive invariant of a rolling upgrade: at most one new
generation; every old generation is fully available relative to its
target; the old targets plus the availability-backed part of the new
generation's target cover `R - unavailable`; the total target never
exceeds `R + surge`; and the new generation's target never exceeds R. -/
def RollInv (d : MDeployment) (gens : List Generation) : Prop :=
  (newGens d gens).length ≤ 1 ∧
  (∀ g ∈ oldGens d gens, g.replicas ≤ g.statusAvailable) ∧
  d.replicas - unavailOf d ≤ totalTargets (oldGens d gens) + newContrib d gens ∧
  totalTargets gens ≤ d.replicas + surgeOf d ∧
  (∀ g ∈ newGens d gens, g.replicas ≤ d.replicas)

instance (d : MDeployment) (gens : List Generation) : Decidable (RollInv d gens) := by
  unfold RollInv
  infer_instance

/-- The guarantees of a second reconcile pass run directly after a first
pass (whose inputs were the canonical new generation `newG` and the old
generations `olds`), with no environment change in between: no create, no
delete, at most one update, and the new generation's target does not
decrease. -/
def SecondPassOk (d : MDeployment) (newG : Generation)
    (olds : List Generation) (created i2 t2 : Nat) : Prop :=
  (reconcile d (rollAfterEnsure d newG olds created).gens i2 t2).createCount = 0 ∧
  (reconcile d (rollAfterEnsure d newG olds created).gens i2 t2).deleteCount = 0 ∧
  (reconcile d (rollAfterEnsure d newG olds created).gens i2 t2).updateCount ≤ 1 ∧
  (rollAfterEnsure d newG olds created).newGen.replicas ≤
    (reconcile d (rollAfterEnsure d newG olds created).gens i2 t2).newGen.replicas

section BasicLemmas

theorem totalTargets_nil : totalTargets [] = 0 := rfl

theorem totalTargets_cons (g : Generation) (l : List Generation) :
    totalTargets (g :: l) = g.replicas + totalTargets l := by
  simp [totalTargets]

theorem totalTargets_append (l1 l2 : List Generation) :
    totalTargets (l1 ++ l2) = totalTargets l1 + totalTargets l2 := by
  simp [totalTargets]

theorem totalTargets_perm {l1 l2 : List Generation} (h : l1.Perm l2) :
    totalTargets l1 = totalTargets l2 := by
  unfold totalTargets
  exact (h.map (fun g => g.replicas)).sum_eq

theorem totalAvailable_cons (g : Generation) (l : List Generation) :
    totalAvailable (g :: l) = g.statusAvailable + totalAvailable l := by
  simp [totalAvailable]

theorem totalAvailable_append (l1 l2 : List Generation) :
    totalAvailable (l1 ++ l2) = totalAvailable l1 + totalAvailable l2 := by
  simp [totalAvailable]

theorem totalAvailable_perm {l1 l2 : List Generation} (h : l1.Perm l2) :
    totalAvailable l1 = totalAvailable l2 := by
  unfold totalAvailable
  exact (h.map (fun g => g.statusAvailable)).sum_eq

theorem newGens_append (d : MDeployment) (l1 l2 : List Generation) :
    newGens d (l1 ++ l2) = newGens d l1 ++ newGens d l2 := by
  simp [newGens]

theorem mem_newGens {d : MDeployment} {gens : List Generation} {g : Generation} :
    g ∈ newGens d gens ↔ g ∈ gens ∧ g.fingerprint = d.fingerprint := by
  simp [newGens, List.mem_filter]

theorem mem_oldGens {d : MDeployment} {gens : List Generation} {g : Generation} :
    g ∈ oldGens d gens ↔ g ∈ gens ∧ g.fingerprint ≠ d.fingerprint := by
  simp [oldGens, List.mem_filter]

theorem pickNewGen_eq_none {d : MDeployment} {gens : List Generation} :
    pickNewGen d gens = none ↔ newGens d gens = [] := by
  unfold pickNewGen
  rcases h : List.insertionSort timeLe (newGens d gens) with _ | ⟨g, l⟩
  · simp only [true_iff]
    have hp := List.perm_insertionSort timeLe (newGens d gens)
    rw [h] at hp
    exact (List.Perm.symm hp).eq_nil
  · simp only [reduceCtorEq, false_iff]
    intro hn
    rw [hn] at h
    simp [List.insertionSort] at h

theorem pickNewGen_mem {d : MDeployment} {gens : List Generation} {g : Generation}
    (h : pickNewGen d gens = some g) :
    g ∈ gens ∧ g.fingerprint = d.fingerprint := by
  unfold pickNewGen at h
  rcases hs : List.insertionSort timeLe (newGens d gens) with _ | ⟨a, l⟩ <;>
      rw [hs] at h
  · cases h
  · cases h
    have hma : g ∈ List.insertionSort timeLe (newGens d gens) := by
      rw [hs]; exact List.mem_cons_self g l
    have hmem : g ∈ newGens d gens :=
      (List.perm_insertionSort timeLe (newGens d gens)).subset hma
    exact mem_newGens.mp hmem

theorem pickNewGen_unique {d : MDeployment} {gens : List Generation} {g : Generation}
    (hlen : (newGens d gens).length ≤ 1) (h : pickNewGen d gens = some g) :
    newGens d gens = [g] := by
  unfold pickNewGen at h
  rcases hs : List.insertionSort timeLe (newGens d gens) with _ | ⟨a, l⟩ <;>
      rw [hs] at h
  · cases h
  · cases h
    have hp := List.perm_insertionSort timeLe (newGens d gens)
    rw [hs] at hp
    have hl : l = [] := by
      have hle := hp.length_eq
      simp only [List.length_cons] at hle
      have : l.length = 0 := by omega
      exact List.length_eq_zero.mp this
    rw [hl] at hp
    exact List.perm_singleton.mp (List.Perm.symm hp)

theorem pickNewGen_of_singleton {d : MDeployment} {l : List Generation}
    {g : Generation} (h : newGens d l = [g]) : pickNewGen d l = some g := by
  unfold pickNewGen
  rw [h]
  simp [List.insertionSort, List.orderedInsert]

theorem newGens_erase_nil {d : MDeployment} {gens : List Generation}
    {g : Generation} (hg : g ∈ gens) (h : newGens d gens = [g]) :
    newGens d (gens.erase g) = [] := by
  have hgm : g.fingerprint = d.fingerprint := by
    have : g ∈ newGens d gens := by rw [h]; exact List.mem_singleton.mpr rfl
    exact (mem_newGens.mp this).2
  have hperm : (newGens d gens).Perm (newGens d (g :: gens.erase g)) :=
    List.Perm.filter _ (List.perm_cons_erase hg)
  have hcons : newGens d (g :: gens.erase g) = g :: newGens d (gens.erase g) := by
    unfold newGens
    rw [List.filter_cons]
    simp [hgm]
  rw [h, hcons] at hperm
  have : ([] : List Generation).Perm (newGens d (gens.erase g)) :=
    List.Perm.cons_inv hperm
  exact (List.Perm.nil_eq this).symm

end BasicLemmas

section DistributionLemmas

theorem assignExtras_map_fst (r : Nat) (ps : List (Generation × Nat)) :
    (assignExtras r ps).map (fun p => p.1) = ps.map (fun p => p.1) := by
  induction ps generalizing r with
  | nil => cases r <;> simp [assignExtras]
  | cons p ps ih =>
      cases r with
      | zero => simp [assignExtras]
      | succ k =>
          simp only [assignExtras]
          split <;> simp [ih]

theorem scaleDownDistribution_map_fst (olds : List Generation) (budget : Nat) :
    (scaleDownDistribution olds budget).map (fun p => p.1) =
      List.insertionSort targetLe olds := by
  unfold scaleDownDistribution
  rw [assignExtras_map_fst]
  rw [List.map_map]
  exact List.map_id _

theorem scaleDownDistribution_mem_fst {olds : List Generation} {budget : Nat}
    {p : Generation × Nat} (h : p ∈ scaleDownDistribution olds budget) :
    p.1 ∈ olds := by
  have : p.1 ∈ (scaleDownDistribution olds budget).map (fun p => p.1) :=
    List.mem_map_of_mem _ h
  rw [scaleDownDistribution_map_fst] at this
  exact (List.perm_insertionSort targetLe olds).subset this

end DistributionLemmas

section ScaleShapeLemmas

theorem scaleStep_newGen_shape (d : MDeployment) (newG : Generation)
    (olds : List Generation) :
    ∃ n, (scaleStep d newG olds).1 = { newG with replicas := n } := by
  rcases hstrat : d.strategy with ⟨ms, mu⟩ | _ <;>
    simp only [scaleStep, hstrat]
  · split
    · exact ⟨_, rfl⟩
    · split
      · exact ⟨newG.replicas, rfl⟩
      · split <;> exact ⟨_, rfl⟩
  · split
    · exact ⟨_, rfl⟩
    · exact ⟨newG.replicas, rfl⟩

theorem scaleStep_olds_shape {d : MDeployment} {newG : Generation}
    {olds : List Generation} {g1 : Generation}
    (h : g1 ∈ (scaleStep d newG olds).2.1) :
    ∃ g ∈ olds, ∃ n, g1 = { g with replicas := n } := by
  rcases hstrat : d.strategy with ⟨ms, mu⟩ | _ <;>
    simp only [scaleStep, hstrat] at h
  · split at h
    · simp only at h
      exact ⟨g1, h, g1.replicas, rfl⟩
    · split at h
      · simp only at h
        exact ⟨g1, h, g1.replicas, rfl⟩
      · split at h
        · simp only at h
          rcases List.mem_map.mp h with ⟨p, hp, hEq⟩
          exact ⟨p.1, scaleDownDistribution_mem_fst hp, _, hEq.symm⟩
        · simp only at h
          exact ⟨g1, h, g1.replicas, rfl⟩
  · split at h <;>
      · simp only at h
        rcases List.mem_map.mp h with ⟨g, hg, hEq⟩
        exact ⟨g, hg, 0, hEq.symm⟩

end ScaleShapeLemmas

section PruneLemmas

theorem pruneRevisions_perm (limit : Nat) (olds : List Generation) :
    ((pruneRevisions limit olds).1 ++ (pruneRevisions limit olds).2).Perm olds := by
  unfold pruneRevisions
  simp only
  set cand := List.insertionSort timeLe (olds.filter isPruneCandidate) with hcand
  set keep := olds.filter (fun g => !isPruneCandidate g) with hkeep
  set k := min (olds.length - limit) cand.length
  have h1 : (cand.drop k ++ cand.take k).Perm cand :=
    List.Perm.trans List.perm_append_comm (by rw [List.take_append_drop])
  have h2 : ((keep ++ cand.drop k) ++ cand.take k).Perm (keep ++ cand) := by
    rw [List.append_assoc]
    exact List.Perm.append_left keep h1
  have h3 : (keep ++ cand).Perm (keep ++ olds.filter isPruneCandidate) :=
    List.Perm.append_left keep (List.perm_insertionSort timeLe _)
  exact h2.trans (h3.trans (List.Perm.trans List.perm_append_comm
    (List.filter_append_perm _ olds)))

theorem pruneRevisions_kept_subset {limit : Nat} {olds : List Generation}
    {g : Generation} (h : g ∈ (pruneRevisions limit olds).1) : g ∈ olds :=
  (pruneRevisions_perm limit olds).subset (List.mem_append_left _ h)

theorem pruneRevisions_deleted_cand {limit : Nat} {olds : List Generation}
    {g : Generation} (h : g ∈ (pruneRevisions limit olds).2) :
    isPruneCandidate g = true := by
  unfold pruneRevisions at h
  simp only at h
  have hs : g ∈ List.insertionSort timeLe (olds.filter isPruneCandidate) :=
    List.mem_of_mem_take h
  have : g ∈ olds.filter isPruneCandidate :=
    (List.perm_insertionSort timeLe _).subset hs
  exact List.of_mem_filter this

theorem pruneRevisions_deleted_subset {limit : Nat} {olds : List Generation}
    {g : Generation} (h : g ∈ (pruneRevisions limit olds).2) : g ∈ olds :=
  (pruneRevisions_perm limit olds).subset (List.mem_append_right _ h)

end PruneLemmas

section ReconcileStructure

theorem newGens_cons_nil {d : MDeployment} {g : Generation} {l : List Generation}
    (hg : g.fingerprint = d.fingerprint)
    (hl : ∀ x ∈ l, x.fingerprint ≠ d.fingerprint) :
    newGens d (g :: l) = [g] := by
  unfold newGens
  rw [List.filter_cons]
  have hc : (g.fingerprint == d.fingerprint) = true := beq_iff_eq.mpr hg
  rw [hc]
  simp only [if_true]
  have : List.filter (fun x => x.fingerprint == d.fingerprint) l = [] := by
    rw [List.filter_eq_nil_iff]
    intro a ha
    simp [hl a ha]
  rw [this]

theorem rollAfterEnsure_newGens (d : MDeployment) (newG : Generation)
    (olds : List Generation) (created : Nat)
    (hnewfp : newG.fingerprint = d.fingerprint)
    (holds : ∀ x ∈ olds, x.fingerprint ≠ d.fingerprint) :
    newGens d (rollAfterEnsure d newG olds created).gens =
      [(rollAfterEnsure d newG olds created).newGen] := by
  unfold rollAfterEnsure
  have hn1fp : (scaleStep d newG olds).1.fingerprint = newG.fingerprint := by
    rcases scaleStep_newGen_shape d newG olds with ⟨n, hsh⟩
    rw [hsh]
  have holds1 : ∀ x ∈ (scaleStep d newG olds).2.1, x.fingerprint ≠ d.fingerprint := by
    intro x hx
    rcases scaleStep_olds_shape hx with ⟨g, hg, n, hEq⟩
    rw [hEq]
    exact holds g hg
  cases hc : (scaleStep d newG olds).2.2.2 with
  | some c =>
      simp only [hc]
      exact newGens_cons_nil hnewfp holds
  | none =>
      simp only [hc]
      refine newGens_cons_nil (by rw [hn1fp, hnewfp]) ?_
      intro x hx
      exact holds1 x (pruneRevisions_kept_subset hx)

theorem reconcile_olds_of_none {d : MDeployment} {gens : List Generation}
    (h : pickNewGen d gens = none) :
    ∀ x ∈ gens, x.fingerprint ≠ d.fingerprint := by
  have hnil : newGens d gens = [] := pickNewGen_eq_none.mp h
  intro x hx hEq
  have : x ∈ newGens d gens := mem_newGens.mpr ⟨hx, hEq⟩
  rw [hnil] at this
  cases this

theorem reconcile_newGens (d : MDeployment) (gens : List Generation)
    (i t : Nat) (hlen : (newGens d gens).length ≤ 1) :
    newGens d (reconcile d gens i t).gens = [(reconcile d gens i t).newGen] := by
  unfold reconcile
  rcases hp : pickNewGen d gens with _ | g
  · exact rollAfterEnsure_newGens d _ gens 1 rfl (reconcile_olds_of_none hp)
  · have hone : newGens d gens = [g] := pickNewGen_unique hlen hp
    have hmem := (pickNewGen_mem hp).1
    have hfp := (pickNewGen_mem hp).2
    have herased : newGens d (gens.erase g) = [] := newGens_erase_nil hmem hone
    refine rollAfterEnsure_newGens d g (gens.erase g) 0 hfp ?_
    intro x hx hEq
    have : x ∈ newGens d (gens.erase g) := mem_newGens.mpr ⟨hx, hEq⟩
    rw [herased] at this
    cases this

theorem rollAfterEnsure_createCount (d : MDeployment) (newG : Generation)
    (olds : List Generation) (created : Nat) :
    (rollAfterEnsure d newG olds created).createCount = created := by
  unfold rollAfterEnsure
  cases hc : (scaleStep d newG olds).2.2.2 <;> simp only [hc]

theorem reconcile_eq_some {d : MDeployment} {gens : List Generation}
    {g : Generation} (i t : Nat) (h : pickNewGen d gens = some g) :
    reconcile d gens i t = rollAfterEnsure d g (gens.erase g) 0 := by
  unfold reconcile
  rw [h]

theorem reconcile_eq_none {d : MDeployment} {gens : List Generation}
    (i t : Nat) (h : pickNewGen d gens = none) :
    reconcile d gens i t = rollAfterEnsure d (freshGen d i t) gens 1 := by
  unfold reconcile
  rw [h]

end ReconcileStructure

section ClaimC4

/-- C4: For every deployment and set of owned generations,
`EnsureGeneration` returns the existing generation when one has a
fingerprint matching the deployment's current template, and otherwise
creates exactly one new generation with replica target 0, an owner
reference to the deployment, the fingerprint label, and the deployment's
selector; re-invocation after the create is a no-op (idempotent,
fingerprint-keyed). -/
theorem ensureGeneration_fingerprint_keyed (d : MDeployment)
    (gens : List Generation) (i1 t1 i2 t2 : Nat) :
    (∀ g, pickNewGen d gens = some g →
      ensureGeneration d gens i1 t1 = (g, gens, 0) ∧
        g ∈ gens ∧ g.fingerprint = d.fingerprint) ∧
    (pickNewGen d gens = none →
      ensureGeneration d gens i1 t1 =
        (freshGen d i1 t1, gens ++ [freshGen d i1 t1], 1) ∧
      (freshGen d i1 t1).replicas = 0 ∧
      (freshGen d i1 t1).owner = d.name ∧
      (freshGen d i1 t1).fingerprint = d.fingerprint ∧
      (freshGen d i1 t1).selector = d.selector ∧
      ensureGeneration d (gens ++ [freshGen d i1 t1]) i2 t2 =
        (freshGen d i1 t1, gens ++ [freshGen d i1 t1], 0)) := by
  constructor
  · intro g hg
    refine ⟨?_, pickNewGen_mem hg⟩
    unfold ensureGeneration
    rw [hg]
  · intro hn
    have hnil := pickNewGen_eq_none.mp hn
    refine ⟨?_, rfl, rfl, rfl, rfl, ?_⟩
    · unfold ensureGeneration
      rw [hn]
    · have hsingle : newGens d (gens ++ [freshGen d i1 t1]) = [freshGen d i1 t1] := by
        rw [newGens_append, hnil]
        simp [newGens, freshGen]
      have hp := pickNewGen_of_singleton hsingle
      unfold ensureGeneration
      rw [hp]

/-- Witness for C4 at the scenario input: no generation matches
fingerprint 2, so one create happens, and the retry performs none. -/
theorem ensureGeneration_fingerprint_keyed_witness :
    ensureGeneration dScenario [oldGenAt 2 2 2] 11 5 =
      (freshGen dScenario 11 5, [oldGenAt 2 2 2] ++ [freshGen dScenario 11 5], 1) ∧
    ensureGeneration dScenario ([oldGenAt 2 2 2] ++ [freshGen dScenario 11 5]) 12 6 =
      (freshGen dScenario 11 5, [oldGenAt 2 2 2] ++ [freshGen dScenario 11 5], 0) := by
  have h :=
    (ensureGeneration_fingerprint_keyed dScenario [oldGenAt 2 2 2] 11 5 12 6).2
      (by decide)
  exact ⟨h.1, h.2.2.2.2.2⟩

end ClaimC4

section ClaimC10

/-- C10: If the generation matching the deployment's current template
fingerprint is deleted out of band while the deployment still exists, the
next reconcile recreates it (exactly one create call), so that after
reconciliation exactly one generation matching the current fingerprint
exists. -/
theorem reconcile_recreates_deleted_new (d : MDeployment)
    (gens : List Generation) (i t : Nat)
    (h : ∀ g ∈ gens, g.fingerprint ≠ d.fingerprint) :
    (reconcile d gens i t).createCount = 1 ∧
    newGens d (reconcile d gens i t).gens = [(reconcile d gens i t).newGen] := by
  have hnil : newGens d gens = [] := by
    unfold newGens
    rw [List.filter_eq_nil_iff]
    intro a ha
    simp [h a ha]
  have hnone : pickNewGen d gens = none := pickNewGen_eq_none.mpr hnil
  have hlen : (newGens d gens).length ≤ 1 := by rw [hnil]; simp
  constructor
  · unfold reconcile
    rw [hnone]
    exact rollAfterEnsure_createCount d _ gens 1
  · exact reconcile_newGens d gens i t hlen

/-- Witness for C10: deleting the sole matching generation and
reconciling the scenario deployment yields exactly one matching
generation again. -/
theorem reconcile_recreates_deleted_new_witness :
    (reconcile dScenario [oldGenAt 2 2 2] 11 5).createCount = 1 ∧
    newGens dScenario (reconcile dScenario [oldGenAt 2 2 2] 11 5).gens =
      [(reconcile dScenario [oldGenAt 2 2 2] 11 5).newGen] :=
  reconcile_recreates_deleted_new dScenario [oldGenAt 2 2 2] 11 5 (by decide)

end ClaimC10

section ClaimC5

/-- C5: A replica-count-only change on an already-converged single
generation with no template-fingerprint change updates that existing
generation's replica target directly to the new R in one step (one update
call when the target differs, none otherwise), and no new generation is
created. -/
theorem reconcile_direct_scale (d : MDeployment) (g : Generation)
    (i t : Nat) (hfp : g.fingerprint = d.fingerprint) :
    (reconcile d [g] i t).gens = [{ g with replicas := d.replicas }] ∧
    (reconcile d [g] i t).createCount = 0 ∧
    (reconcile d [g] i t).deleteCount = 0 ∧
    (reconcile d [g] i t).updateCount =
      (if g.replicas = d.replicas then 0 else 1) := by
  have hsingle : newGens d [g] = [g] :=
    newGens_cons_nil hfp (by intro x hx; cases hx)
  have hp : pickNewGen d [g] = some g := pickNewGen_of_singleton hsingle
  have hprune : pruneRevisions d.revisionHistoryLimit ([] : List Generation) =
      ([], []) := by
    simp [pruneRevisions, List.insertionSort]
  have hcount : (if g.replicas != d.replicas then 1 else 0) =
      (if g.replicas = d.replicas then 0 else 1) := by
    by_cases heq : g.replicas = d.replicas <;> simp [heq]
  rw [reconcile_eq_some i t hp, List.erase_cons_head]
  rcases hstrat : d.strategy with ⟨ms, mu⟩ | _
  · have hs : scaleStep d g [] =
        ({ g with replicas := d.replicas }, [],
          (if g.replicas != d.replicas then 1 else 0), none) := by
      simp [scaleStep, hstrat]
    unfold rollAfterEnsure
    rw [hs]
    simp [hprune, hcount]
  · have hs : scaleStep d g [] =
        ({ g with replicas := d.replicas }, [],
          (if g.replicas != d.replicas then 1 else 0), none) := by
      simp [scaleStep, hstrat]
    unfold rollAfterEnsure
    rw [hs]
    simp [hprune, hcount]

/-- Witness for C5 at the test's scenario: R scaled from 2 to 5 on the
single converged generation updates its target to 5 in one step with no
create. -/
theorem reconcile_direct_scale_witness :
    (2 : Nat) ≠ (5 : Nat) ∧
    (reconcile { dScenario with replicas := 5, fingerprint := 1 }
        [oldGenAt 2 2 2] 99 99).gens = [oldGenAt 5 2 2] ∧
    (reconcile { dScenario with replicas := 5, fingerprint := 1 }
        [oldGenAt 2 2 2] 99 99).createCount = 0 := by
  have h := reconcile_direct_scale
    { dScenario with replicas := 5, fingerprint := 1 } (oldGenAt 2 2 2) 99 99
    (by decide)
  refine ⟨by decide, ?_, h.2.1⟩
  rw [h.1]
  decide

end ClaimC5

section ClaimC9

theorem scaleStep_invalid {d : MDeployment} {ms mu : Bound}
    (newG : Generation) {olds : List Generation}
    (hstrat : d.strategy = .rollingUpdate ms mu)
    (hsurge : resolveSurge ms d.replicas = 0)
    (hunavail : resolveUnavailable mu d.replicas = 0)
    (hR : d.replicas ≠ 0)
    (hpend : ∃ g ∈ olds, g.replicas ≠ 0) :
    scaleStep d newG olds = (newG, olds, 0, some .invalidStrategy) := by
  have hall : olds.all (fun g => g.replicas == 0) = false := by
    rcases hpend with ⟨g, hg, hgr⟩
    rcases hb : olds.all (fun g => g.replicas == 0) with _ | _
    · rfl
    · exfalso
      have := List.all_eq_true.mp hb g hg
      exact hgr (by simpa using this)
  simp only [scaleStep, hstrat]
  rw [hall]
  simp only [Bool.false_eq_true, if_false]
  rw [if_pos ⟨hsurge, hunavail, hR⟩]

/-- C9: When maxSurge and maxUnavailable both resolve to zero while R > 0
and a template change is pending (an old generation still carries a
non-zero target), reconciliation fails with a validation error instead of
making progress: no update or delete calls are issued, the error is
surfaced as a status condition, and the requeue decision for that
condition is the long, non-aggressive backoff. -/
theorem reconcile_invalid_strategy (d : MDeployment) (ms mu : Bound)
    (gens : List Generation) (i t : Nat)
    (hstrat : d.strategy = .rollingUpdate ms mu)
    (hsurge : resolveSurge ms d.replicas = 0)
    (hunavail : resolveUnavailable mu d.replicas = 0)
    (hR : d.replicas ≠ 0)
    (hpend : ∃ g ∈ gens, g.fingerprint ≠ d.fingerprint ∧ g.replicas ≠ 0) :
    (reconcile d gens i t).condition = some .invalidStrategy ∧
    (reconcile d gens i t).updateCount = 0 ∧
    (reconcile d gens i t).deleteCount = 0 ∧
    requeueAfter (reconcile d gens i t).condition = .longBackoff := by
  have main : ∀ newG olds created, (∃ g ∈ olds, g.replicas ≠ 0) →
      (rollAfterEnsure d newG olds created).condition = some .invalidStrategy ∧
      (rollAfterEnsure d newG olds created).updateCount = 0 ∧
      (rollAfterEnsure d newG olds created).deleteCount = 0 := by
    intro newG olds created hp
    have hs := scaleStep_invalid newG hstrat hsurge hunavail hR hp
    unfold rollAfterEnsure
    rw [hs]
    exact ⟨rfl, rfl, rfl⟩
  rcases hpick : pickNewGen d gens with _ | g
  · rw [reconcile_eq_none i t hpick]
    rcases hpend with ⟨g0, hg0, _, hg0r⟩
    have h := main (freshGen d i t) gens 1 ⟨g0, hg0, hg0r⟩
    exact ⟨h.1, h.2.1, h.2.2, by rw [h.1]; rfl⟩
  · rw [reconcile_eq_some i t hpick]
    rcases hpend with ⟨g0, hg0, hg0fp, hg0r⟩
    have hgfp := (pickNewGen_mem hpick).2
    have hne : g0 ≠ g := by
      intro hEq
      rw [hEq] at hg0fp
      exact hg0fp hgfp
    have hg0e : g0 ∈ gens.erase g := (List.mem_erase_of_ne hne).mpr hg0
    have h := main g (gens.erase g) 0 ⟨g0, hg0e, hg0r⟩
    exact ⟨h.1, h.2.1, h.2.2, by rw [h.1]; rfl⟩

/-- Witness for C9: the scenario deployment with both bounds 0 and the
old generation still at target 2 yields the validation condition and the
long backoff with no update or delete. -/
theorem reconcile_invalid_strategy_witness :
    (reconcile
        { dScenario with strategy := .rollingUpdate (.absolute 0) (.absolute 0) }
        [oldGenAt 2 2 2, newGenAt 0 0 0] 99 99).condition =
      some .invalidStrategy ∧
    (reconcile
        { dScenario with strategy := .rollingUpdate (.absolute 0) (.absolute 0) }
        [oldGenAt 2 2 2, newGenAt 0 0 0] 99 99).updateCount = 0 ∧
    (reconcile
        { dScenario with strategy := .rollingUpdate (.absolute 0) (.absolute 0) }
        [oldGenAt 2 2 2, newGenAt 0 0 0] 99 99).deleteCount = 0 ∧
    requeueAfter
      (reconcile
        { dScenario with strategy := .rollingUpdate (.absolute 0) (.absolute 0) }
        [oldGenAt 2 2 2, newGenAt 0 0 0] 99 99).condition = .longBackoff :=
  reconcile_invalid_strategy
    { dScenario with strategy := .rollingUpdate (.absolute 0) (.absolute 0) }
    (.absolute 0) (.absolute 0) [oldGenAt 2 2 2, newGenAt 0 0 0] 99 99
    rfl rfl rfl (by decide)
    ⟨oldGenAt 2 2 2, by decide, by decide, by decide⟩

end ClaimC9

section ClaimC2

/-- C2: Under the RollingUpdate strategy with R = 2, maxUnavailable = 0
and maxSurge = 1, a template change on the converged old generation
creates a new generation with target 0 which is scaled up in the same
pass; over the following reconciles (statuses landing in between) the new
generation's target rises 0, 1, 2 while the old generation's target falls
2, 1, 0 in lockstep; at every observed state of the trace the total
target stays at most R + surge = 3 and the total availability at least
R - unavailable = 2; and the final state is a single generation with
target 2 (the empty old one being pruned). -/
theorem rolling_scenario_lockstep :
    (ensureGeneration dScenario [oldGenAt 2 2 2] 11 5).1 = newGenAt 0 0 0 ∧
    (reconcile dScenario [oldGenAt 2 2 2] 11 5).createCount = 1 ∧
    (reconcile dScenario [oldGenAt 2 2 2] 11 5).gens =
      [newGenAt 1 0 0, oldGenAt 2 2 2] ∧
    (reconcile dScenario [newGenAt 1 1 1, oldGenAt 2 2 2] 99 99).gens =
      [newGenAt 1 1 1, oldGenAt 1 2 2] ∧
    (reconcile dScenario [newGenAt 1 1 1, oldGenAt 1 1 1] 99 99).gens =
      [newGenAt 2 1 1, oldGenAt 1 1 1] ∧
    (reconcile dScenario [newGenAt 2 2 2, oldGenAt 1 1 1] 99 99).gens =
      [newGenAt 2 2 2, oldGenAt 0 1 1] ∧
    (reconcile dScenario [newGenAt 2 2 2, oldGenAt 0 0 0] 99 99).gens =
      [newGenAt 2 2 2] ∧
    (reconcile dScenario [newGenAt 2 2 2, oldGenAt 0 0 0] 99 99).deleteCount = 1 ∧
    (∀ s ∈ [[oldGenAt 2 2 2],
            [newGenAt 1 0 0, oldGenAt 2 2 2],
            [newGenAt 1 1 1, oldGenAt 2 2 2],
            [newGenAt 1 1 1, oldGenAt 1 2 2],
            [newGenAt 1 1 1, oldGenAt 1 1 1],
            [newGenAt 2 1 1, oldGenAt 1 1 1],
            [newGenAt 2 2 2, oldGenAt 1 1 1],
            [newGenAt 2 2 2, oldGenAt 0 1 1],
            [newGenAt 2 2 2, oldGenAt 0 0 0],
            [newGenAt 2 2 2]],
      totalTargets s ≤ 3 ∧ 2 ≤ totalAvailable s) := by
  decide

end ClaimC2

section DistributionArithmetic

theorem sum_floor_mul (ts : List Nat) (b t : Nat) :
    t * ((ts.map (fun a => a * b / t)).sum) + ((ts.map (fun a => a * b % t)).sum)
      = ts.sum * b := by
  induction ts with
  | nil => simp
  | cons a ts ih =>
      simp only [List.map_cons, List.sum_cons]
      have h1 : t * (a * b / t) + a * b % t = a * b := Nat.div_add_mod (a * b) t
      calc t * (a * b / t + (ts.map (fun a => a * b / t)).sum) +
            (a * b % t + (ts.map (fun a => a * b % t)).sum)
          = (t * (a * b / t) + a * b % t) +
            (t * (ts.map (fun a => a * b / t)).sum +
              (ts.map (fun a => a * b % t)).sum) := by ring
        _ = a * b + ts.sum * b := by rw [h1, ih]
        _ = (a + ts.sum) * b := by ring

theorem sum_mods_le (ts : List Nat) (b t : Nat) (ht : 0 < t) :
    ((ts.map (fun a => a * b % t)).sum) ≤ (ts.countP (fun a => a != 0)) * (t - 1) := by
  induction ts with
  | nil => simp
  | cons a ts ih =>
      simp only [List.map_cons, List.sum_cons, List.countP_cons]
      by_cases ha : a = 0
      · subst ha
        simp only [Nat.zero_mul, Nat.zero_mod, Nat.zero_add, bne_self_eq_false,
          Bool.false_eq_true, if_false, Nat.add_zero]
        exact ih
      · have hmod : a * b % t ≤ t - 1 := by
          have := Nat.mod_lt (a * b) ht
          omega
        have hcnt : ((a != 0) : Bool) = true := by
          simp [bne_iff_ne, ha]
        rw [hcnt]
        simp only [if_true]
        calc a * b % t + (ts.map (fun a => a * b % t)).sum
            ≤ (t - 1) + (ts.countP (fun a => a != 0)) * (t - 1) :=
              Nat.add_le_add hmod ih
          _ = (ts.countP (fun a => a != 0) + 1) * (t - 1) := by ring

theorem pos_countP_of_sum_pos (ts : List Nat) (h : 0 < ts.sum) :
    0 < ts.countP (fun a => a != 0) := by
  induction ts with
  | nil => simp at h
  | cons a ts ih =>
      simp only [List.sum_cons] at h
      simp only [List.countP_cons]
      by_cases ha : a = 0
      · subst ha
        simp only [Nat.zero_add] at h
        simp only [bne_self_eq_false, Bool.false_eq_true, if_false, Nat.add_zero]
        exact ih h
      · have hcnt : ((a != 0) : Bool) = true := by simp [bne_iff_ne, ha]
        rw [hcnt]
        simp

theorem rem_bound_arith {t s m p b : Nat} (ht : 0 < t)
    (hkey : t * s + m = t * b) (hm : m ≤ p * (t - 1)) (hp : 0 < p) :
    b - s < p := by
  by_contra hcon
  push_neg at hcon
  have hsb : s ≤ b := by
    have h2 : t * s ≤ t * b := by omega
    exact Nat.le_of_mul_le_mul_left h2 ht
  have hspb : s + p ≤ b := by omega
  have h3 : t * (s + p) ≤ t * b := Nat.mul_le_mul_left t hspb
  rw [Nat.mul_add] at h3
  have h4 : p * (t - 1) + p = p * t := by
    cases t with
    | zero => omega
    | succ t0 => simp only [Nat.succ_sub_one]; ring
  have h5 : t * p = p * t := Nat.mul_comm t p
  omega

theorem rem_lt_pos_count (ts : List Nat) (b : Nat) (hb : b < ts.sum) :
    b - ((ts.map (fun a => a * b / ts.sum)).sum) <
      ts.countP (fun a => a != 0) := by
  have ht : 0 < ts.sum := lt_of_le_of_lt (Nat.zero_le b) hb
  have hkey : ts.sum * ((ts.map (fun a => a * b / ts.sum)).sum) +
      ((ts.map (fun a => a * b % ts.sum)).sum) = ts.sum * b := by
    rw [sum_floor_mul ts b ts.sum]
  have hm := sum_mods_le ts b ts.sum ht
  have hp := pos_countP_of_sum_pos ts ht
  exact rem_bound_arith ht hkey hm hp

theorem assignExtras_sum (ps : List (Generation × Nat)) (r : Nat)
    (h : r ≤ ps.countP (fun p => decide (p.2 < p.1.replicas))) :
    ((assignExtras r ps).map (fun p => p.2)).sum =
      (ps.map (fun p => p.2)).sum + r := by
  induction ps generalizing r with
  | nil =>
      simp only [List.countP_nil, Nat.le_zero] at h
      subst h
      simp [assignExtras]
  | cons p ps ih =>
      cases r with
      | zero => simp [assignExtras]
      | succ k =>
          simp only [List.countP_cons] at h
          by_cases hroom : p.2 < p.1.replicas
          · have hd : (decide (p.2 < p.1.replicas)) = true := by simp [hroom]
            rw [hd] at h
            simp only [if_true] at h
            have hk : k ≤ ps.countP (fun p => decide (p.2 < p.1.replicas)) := by omega
            simp only [assignExtras, if_pos hroom, List.map_cons, List.sum_cons]
            rw [ih k hk]
            omega
          · have hd : (decide (p.2 < p.1.replicas)) = false := by simp [hroom]
            rw [hd] at h
            simp only [Bool.false_eq_true, if_false] at h
            have hk : k + 1 ≤ ps.countP (fun p => decide (p.2 < p.1.replicas)) := by
              omega
            simp only [assignExtras, if_neg hroom, List.map_cons, List.sum_cons]
            rw [ih (k + 1) hk]
            omega

theorem assignExtras_le (ps : List (Generation × Nat)) (r : Nat)
    (h : ∀ p ∈ ps, p.2 ≤ p.1.replicas) :
    ∀ q ∈ assignExtras r ps, q.2 ≤ q.1.replicas := by
  induction ps generalizing r with
  | nil =>
      intro q hq
      cases r <;> simp [assignExtras] at hq
  | cons p ps ih =>
      intro q hq
      cases r with
      | zero =>
          simp only [assignExtras] at hq
          exact h q hq
      | succ k =>
          by_cases hroom : p.2 < p.1.replicas
          · simp only [assignExtras, if_pos hroom, List.mem_cons] at hq
            rcases hq with hq | hq
            · rw [hq]
              exact hroom
            · exact ih k (fun x hx => h x (List.mem_cons_of_mem p hx)) q hq
          · simp only [assignExtras, if_neg hroom, List.mem_cons] at hq
            rcases hq with hq | hq
            · rw [hq]
              exact h p (List.mem_cons_self p ps)
            · exact ih (k + 1) (fun x hx => h x (List.mem_cons_of_mem p hx)) q hq

end DistributionArithmetic

section ClaimC3

/-- C3: In a single Rolling Scaler step the scale-down budget is
distributed across the old generations proportionally to current targets
with truncation, the remainder is assigned one unit at a time in
ascending order of current target, every decrement stays within the
generation's current target (so targets are clamped at zero), the
generations of the result are exactly the old generations, and the sum of
the per-generation decrements equals the scale-down budget exactly. -/
theorem scaleDownDistribution_conserves (olds : List Generation) (budget : Nat)
    (h : budget ≤ totalTargets olds) :
    ((scaleDownDistribution olds budget).map (fun p => p.2)).sum = budget ∧
    (∀ p ∈ scaleDownDistribution olds budget, p.2 ≤ p.1.replicas) ∧
    ((scaleDownDistribution olds budget).map (fun p => p.1)).Perm olds := by
  have hperm := List.perm_insertionSort targetLe olds
  set T := totalTargets olds with hTdef
  set sorted := List.insertionSort targetLe olds with hsorteddef
  set base := sorted.map (fun g => (g, g.replicas * budget / T)) with hbasedef
  set ts := sorted.map (fun g => g.replicas) with htsdef
  have hdist : scaleDownDistribution olds budget =
      assignExtras (budget - (base.map (fun p => p.2)).sum) base := rfl
  have hsnd : base.map (fun p => p.2) = ts.map (fun a => a * budget / T) := by
    rw [hbasedef, htsdef, List.map_map, List.map_map]
    rfl
  have htsum : ts.sum = T := by
    rw [htsdef]
    exact totalTargets_perm hperm
  have hS_le : (ts.map (fun a => a * budget / T)).sum ≤ budget := by
    rcases Nat.eq_zero_or_pos T with hT0 | hTpos
    · have hb0 : budget = 0 := by omega
      subst hb0
      simp
    · have hkey := sum_floor_mul ts budget T
      rw [htsum] at hkey
      have h2 : T * ((ts.map (fun a => a * budget / T)).sum) ≤ T * budget := by
        omega
      exact Nat.le_of_mul_le_mul_left h2 hTpos
  have hroom : ∀ p ∈ base, p.2 ≤ p.1.replicas := by
    intro p hp
    rw [hbasedef] at hp
    rcases List.mem_map.mp hp with ⟨g, _, hEq⟩
    rw [← hEq]
    show g.replicas * budget / T ≤ g.replicas
    rcases Nat.eq_zero_or_pos T with hT0 | hTpos
    · rw [hT0]
      simp
    · calc g.replicas * budget / T ≤ g.replicas * T / T :=
          Nat.div_le_div_right (Nat.mul_le_mul_left _ h)
        _ = g.replicas := Nat.mul_div_cancel _ hTpos
  refine ⟨?_, ?_, ?_⟩
  · have hboundr : (budget - (base.map (fun p => p.2)).sum) ≤
        base.countP (fun p => decide (p.2 < p.1.replicas)) := by
      rcases Nat.lt_or_ge budget T with hlt | hge
      · have hTpos : 0 < T := lt_of_le_of_lt (Nat.zero_le budget) hlt
        have hb2 : budget < ts.sum := by rw [htsum]; exact hlt
        have hrem := rem_lt_pos_count ts budget hb2
        rw [htsum] at hrem
        have hcnt : base.countP (fun p => decide (p.2 < p.1.replicas)) =
            ts.countP (fun a => a != 0) := by
          rw [hbasedef, htsdef, List.countP_map, List.countP_map]
          refine List.countP_congr ?_
          intro g _
          show (decide (g.replicas * budget / T < g.replicas) = true) ↔
            ((g.replicas != 0) = true)
          by_cases hz : g.replicas = 0
          · simp [hz]
          · have hpos : 0 < g.replicas := Nat.pos_of_ne_zero hz
            have hlt2 : g.replicas * budget / T < g.replicas := by
              rw [Nat.div_lt_iff_lt_mul hTpos]
              exact Nat.mul_lt_mul_of_pos_left hlt hpos
            simp [hlt2, bne_iff_ne, hz]
        rw [hcnt, hsnd]
        omega
      · have hbt : budget = T := le_antisymm h hge
        have hfull : (base.map (fun p => p.2)).sum = budget := by
          rcases Nat.eq_zero_or_pos T with hT0 | hTpos
          · have hb0 : budget = 0 := by omega
            rw [hsnd, hb0]
            simp
          · rw [hsnd]
            have hmap : ts.map (fun a => a * budget / T) = ts.map (fun a => a) := by
              refine List.map_congr_left ?_
              intro a _
              rw [hbt]
              exact Nat.mul_div_cancel a hTpos
            rw [hmap, List.map_id', htsum, hbt]
        rw [hfull]
        simp
    have hfinal := assignExtras_sum base (budget - (base.map (fun p => p.2)).sum)
      hboundr
    rw [hdist, hfinal, hsnd]
    omega
  · intro p hp
    rw [hdist] at hp
    exact assignExtras_le base _ hroom p hp
  · rw [scaleDownDistribution_map_fst]
    exact hperm

/-- Witness for C3: distributing a budget of 2 over old generations with
targets 3 and 1 removes exactly 2 replicas in total. -/
theorem scaleDownDistribution_conserves_witness :
    ((scaleDownDistribution [oldGenAt 3 3 3, newGenAt 1 1 1] 2).map
        (fun p => p.2)).sum = 2 ∧
    (∀ p ∈ scaleDownDistribution [oldGenAt 3 3 3, newGenAt 1 1 1] 2,
      p.2 ≤ p.1.replicas) :=
  ⟨(scaleDownDistribution_conserves [oldGenAt 3 3 3, newGenAt 1 1 1] 2
      (by decide)).1,
    (scaleDownDistribution_conserves [oldGenAt 3 3 3, newGenAt 1 1 1] 2
      (by decide)).2.1⟩

end ClaimC3

section ClaimC6

/-- C6: The Revision Pruner deletes only old generations whose replica
target and actual status replicas are both zero; generations with
non-zero target or actual replicas are always retained; after a prune the
count of retained empty old generations never exceeds
`revisionHistoryLimit`; deletion is oldest-first by creation time (every
deleted candidate is no younger than every kept candidate); nothing else
is lost (kept plus deleted is a permutation of the input); and the
generation designated "new" is never passed to the pruner: it is always
part of the reconcile output. -/
theorem pruneRevisions_spec :
    (∀ limit olds,
      (∀ g ∈ (pruneRevisions limit olds).2,
        g.replicas = 0 ∧ g.statusReplicas = 0) ∧
      (∀ g ∈ olds, isPruneCandidate g = false → g ∈ (pruneRevisions limit olds).1) ∧
      ((pruneRevisions limit olds).1.countP isPruneCandidate ≤ limit) ∧
      (∀ x ∈ (pruneRevisions limit olds).2, ∀ y ∈ (pruneRevisions limit olds).1,
        isPruneCandidate y = true → x.creationTime ≤ y.creationTime) ∧
      ((pruneRevisions limit olds).1 ++ (pruneRevisions limit olds).2).Perm olds) ∧
    (∀ d gens i t, (reconcile d gens i t).newGen ∈ (reconcile d gens i t).gens) := by
  constructor
  · intro limit olds
    have hcandAll : ∀ g ∈ List.insertionSort timeLe (olds.filter isPruneCandidate),
        isPruneCandidate g = true := by
      intro g hg
      exact List.of_mem_filter ((List.perm_insertionSort timeLe _).subset hg)
    set cand := List.insertionSort timeLe (olds.filter isPruneCandidate) with hcand
    set keep := olds.filter (fun g => !isPruneCandidate g) with hkeep
    set k := min (olds.length - limit) cand.length with hk
    have hpr : pruneRevisions limit olds = (keep ++ cand.drop k, cand.take k) := rfl
    refine ⟨?_, ?_, ?_, ?_, ?_⟩
    · intro g hg
      rw [hpr] at hg
      have hone : isPruneCandidate g = true := hcandAll g (List.mem_of_mem_take hg)
      simp only [isPruneCandidate, Bool.and_eq_true, beq_iff_eq] at hone
      exact hone
    · intro g hg hnc
      rw [hpr]
      refine List.mem_append_left _ ?_
      rw [hkeep]
      refine List.mem_filter.mpr ⟨hg, ?_⟩
      simp [hnc]
    · rw [hpr]
      simp only [List.countP_append]
      have h1 : keep.countP isPruneCandidate = 0 := by
        rw [hkeep, List.countP_eq_zero]
        intro a ha
        have hmem := List.of_mem_filter ha
        simp only [Bool.not_eq_true'] at hmem
        simp [hmem]
      have h2 : (cand.drop k).countP isPruneCandidate = (cand.drop k).length := by
        rw [List.countP_eq_length]
        intro a ha
        exact hcandAll a (List.mem_of_mem_drop ha)
      rw [h1, h2, List.length_drop]
      have hclen : cand.length ≤ olds.length := by
        rw [hcand]
        calc (List.insertionSort timeLe (olds.filter isPruneCandidate)).length
            = (olds.filter isPruneCandidate).length :=
              (List.perm_insertionSort _ _).length_eq
          _ ≤ olds.length := List.length_filter_le _ _
      omega
    · intro x hx y hy hcy
      rw [hpr] at hx hy
      have hsorted : List.Sorted timeLe cand := List.sorted_insertionSort timeLe _
      rcases List.mem_append.mp hy with hy1 | hy2
      · exfalso
        rw [hkeep] at hy1
        have := List.of_mem_filter hy1
        simp [hcy] at this
      · have hpw : List.Pairwise timeLe (cand.take k ++ cand.drop k) := by
          rw [List.take_append_drop]
          exact hsorted
        exact (List.pairwise_append.mp hpw).2.2 x hx y hy2
    · exact pruneRevisions_perm limit olds
  · intro d gens i t
    rcases hpick : pickNewGen d gens with _ | g
    · rw [reconcile_eq_none i t hpick]
      unfold rollAfterEnsure
      cases hc : (scaleStep d (freshGen d i t) gens).2.2.2 <;> simp [hc]
    · rw [reconcile_eq_some i t hpick]
      unfold rollAfterEnsure
      cases hc : (scaleStep d g (gens.erase g)).2.2.2 <;> simp [hc]

/-- Witness for C6: with limit 0 an empty old generation is deleted and
the count of retained empties is 0; an active old generation is kept; the
reconcile output always contains the new generation. -/
theorem pruneRevisions_spec_witness :
    (pruneRevisions 0 [oldGenAt 0 0 0]).1.countP isPruneCandidate ≤ 0 ∧
    oldGenAt 1 1 1 ∈ (pruneRevisions 0 [oldGenAt 1 1 1]).1 ∧
    (reconcile dScenario [oldGenAt 2 2 2] 11 5).newGen ∈
      (reconcile dScenario [oldGenAt 2 2 2] 11 5).gens := by
  refine ⟨(pruneRevisions_spec.1 0 [oldGenAt 0 0 0]).2.2.1, ?_,
    pruneRevisions_spec.2 dScenario [oldGenAt 2 2 2] 11 5⟩
  exact (pruneRevisions_spec.1 0 [oldGenAt 1 1 1]).2.1 (oldGenAt 1 1 1)
    (by decide) (by decide)

end ClaimC6

section ClaimC7

theorem recInv_reconcile {d : MDeployment} (hstrat : d.strategy = .recreate)
    (gens : List Generation) (i t : Nat) :
    RecInv d (reconcile d gens i t).gens := by
  have main : ∀ newG olds created, newG.fingerprint = d.fingerprint →
      RecInv d (rollAfterEnsure d newG olds created).gens := by
    intro newG olds created hnewfp
    have holds1 : ∀ x ∈ (scaleStep d newG olds).2.1, x.replicas = 0 := by
      intro x hx
      simp only [scaleStep, hstrat] at hx
      split at hx <;>
        · simp only at hx
          rcases List.mem_map.mp hx with ⟨g, _, hEq⟩
          rw [← hEq]
    have hnone : (scaleStep d newG olds).2.2.2 = none := by
      simp only [scaleStep, hstrat]
      split <;> rfl
    unfold rollAfterEnsure
    simp only [hnone]
    intro g hg hgfp hgpos x hx hxfp
    rcases List.mem_cons.mp hx with hx1 | hx2
    · exfalso
      rcases scaleStep_newGen_shape d newG olds with ⟨n, hsh⟩
      rw [hx1, hsh] at hxfp
      exact hxfp hnewfp
    · exact holds1 x (pruneRevisions_kept_subset hx2)
  rcases hpick : pickNewGen d gens with _ | g
  · rw [reconcile_eq_none i t hpick]
    exact main _ gens 1 rfl
  · rw [reconcile_eq_some i t hpick]
    exact main g (gens.erase g) 0 (pickNewGen_mem hpick).2

theorem recInv_env {d : MDeployment} {l r : List Generation}
    {g g1 : Generation} (h : statusMove g g1)
    (hinv : RecInv d (l ++ g :: r)) : RecInv d (l ++ g1 :: r) := by
  have htrans : ∀ z ∈ l ++ g1 :: r, ∃ z0 ∈ l ++ g :: r,
      z0.fingerprint = z.fingerprint ∧ z0.replicas = z.replicas := by
    intro z hz
    rcases List.mem_append.mp hz with hz1 | hz1
    · exact ⟨z, List.mem_append_left _ hz1, rfl, rfl⟩
    · rcases List.mem_cons.mp hz1 with hz2 | hz2
      · subst hz2
        exact ⟨g, List.mem_append_right _ (List.mem_cons_self _ _),
          h.2.2.2.1.symm, h.2.2.2.2.2.1.symm⟩
      · exact ⟨z, List.mem_append_right _ (List.mem_cons_of_mem _ hz2), rfl, rfl⟩
  intro x hx hxfp hxpos y hy hyfp
  rcases htrans x hx with ⟨x0, hx0, hx0fp, hx0r⟩
  rcases htrans y hy with ⟨y0, hy0, hy0fp, hy0r⟩
  have := hinv x0 hx0 (by rw [hx0fp]; exact hxfp) (by rw [hx0r]; exact hxpos)
    y0 hy0 (by rw [hy0fp]; exact hyfp)
  rw [← hy0r]
  exact this

theorem recInv_step {d : MDeployment} (hstrat : d.strategy = .recreate)
    {s s1 : List Generation} (hstep : Step d s s1) (hinv : RecInv d s) :
    RecInv d s1 :=
  match hstep with
  | .reconcileStep gens i t => recInv_reconcile hstrat gens i t
  | .envStep _ _ _ _ h => recInv_env h hinv

/-- C7: Under the Recreate strategy, at no reachable state do an old
generation and the new generation simultaneously have replica target
greater than 0: from any state satisfying the exclusion property, every
state reachable through reconcile and environment steps still satisfies
it — a new generation with positive target forces every old generation's
target to be 0. -/
theorem recreate_no_concurrent_targets (d : MDeployment)
    (hstrat : d.strategy = .recreate) (s0 s : List Generation)
    (hinv : RecInv d s0)
    (hreach : Relation.ReflTransGen (Step d) s0 s) :
    RecInv d s := by
  induction hreach with
  | refl => exact hinv
  | tail _ hstep ih => exact recInv_step hstrat hstep ih

/-- Witness for C7: the recreate deployment starting from the converged
old generation satisfies the exclusion property, and so does the state
after one reconcile step. -/
theorem recreate_no_concurrent_targets_witness :
    RecInv { dScenario with strategy := .recreate } [oldGenAt 2 2 2] ∧
    RecInv { dScenario with strategy := .recreate }
      (reconcile { dScenario with strategy := .recreate }
        [oldGenAt 2 2 2] 11 5).gens :=
  ⟨recreate_no_concurrent_targets { dScenario with strategy := .recreate } rfl
      [oldGenAt 2 2 2] [oldGenAt 2 2 2] (by decide) Relation.ReflTransGen.refl,
    recreate_no_concurrent_targets { dScenario with strategy := .recreate } rfl
      [oldGenAt 2 2 2]
      (reconcile { dScenario with strategy := .recreate } [oldGenAt 2 2 2] 11 5).gens
      (by decide)
      (Relation.ReflTransGen.single
        (Step.reconcileStep [oldGenAt 2 2 2] 11 5))⟩

end ClaimC7

section RollingInvariant

theorem newContrib_perm {d : MDeployment} {l1 l2 : List Generation}
    (h : l1.Perm l2) : newContrib d l1 = newContrib d l2 := by
  unfold newContrib newGens
  exact ((h.filter _).map _).sum_eq

theorem rollInv_perm {d : MDeployment} {l1 l2 : List Generation}
    (h : l1.Perm l2) (hinv : RollInv d l1) : RollInv d l2 := by
  have hnewp : (newGens d l1).Perm (newGens d l2) := h.filter _
  have holdp : (oldGens d l1).Perm (oldGens d l2) := h.filter _
  obtain ⟨h1, h2, h3, h4, h5⟩ := hinv
  refine ⟨?_, ?_, ?_, ?_, ?_⟩
  · rw [← hnewp.length_eq]
    exact h1
  · intro g hg
    exact h2 g (holdp.symm.subset hg)
  · rw [← totalTargets_perm holdp, ← newContrib_perm h]
    exact h3
  · rw [← totalTargets_perm h]
    exact h4
  · intro g hg
    exact h5 g (hnewp.symm.subset hg)

theorem oldGens_cons_nil {d : MDeployment} {x : Generation}
    {ys : List Generation} (hx : x.fingerprint = d.fingerprint)
    (hys : ∀ y ∈ ys, y.fingerprint ≠ d.fingerprint) :
    oldGens d (x :: ys) = ys := by
  unfold oldGens
  rw [List.filter_cons]
  have hc : (x.fingerprint != d.fingerprint) = false := by simp [hx]
  rw [hc]
  simp only [Bool.false_eq_true, if_false]
  exact List.filter_eq_self.mpr (fun y hy => by simp [bne_iff_ne, hys y hy])

theorem newContrib_cons {d : MDeployment} {x : Generation}
    {ys : List Generation} (hx : x.fingerprint = d.fingerprint)
    (hys : ∀ y ∈ ys, y.fingerprint ≠ d.fingerprint) :
    newContrib d (x :: ys) = min x.replicas x.statusAvailable := by
  unfold newContrib
  rw [newGens_cons_nil hx hys]
  simp

/-- Build the invariant for a state of the shape `new :: olds`. -/
theorem rollInv_build {d : MDeployment} {x : Generation} {ys : List Generation}
    (hx : x.fingerprint = d.fingerprint)
    (hys : ∀ y ∈ ys, y.fingerprint ≠ d.fingerprint)
    (h2 : ∀ y ∈ ys, y.replicas ≤ y.statusAvailable)
    (h3 : d.replicas - unavailOf d ≤
      totalTargets ys + min x.replicas x.statusAvailable)
    (h4 : x.replicas + totalTargets ys ≤ d.replicas + surgeOf d)
    (h5 : x.replicas ≤ d.replicas) : RollInv d (x :: ys) := by
  refine ⟨?_, ?_, ?_, ?_, ?_⟩
  · rw [newGens_cons_nil hx hys]
    exact Nat.le_refl 1
  · rw [oldGens_cons_nil hx hys]
    exact h2
  · rw [oldGens_cons_nil hx hys, newContrib_cons hx hys]
    exact h3
  · rw [totalTargets_cons]
    exact h4
  · rw [newGens_cons_nil hx hys]
    intro g hg
    rw [List.mem_singleton.mp hg]
    exact h5

/-- Read the invariant's content off a state of the shape `new :: olds`. -/
theorem rollInv_cons_pieces {d : MDeployment} {x : Generation}
    {ys : List Generation} (hx : x.fingerprint = d.fingerprint)
    (hys : ∀ y ∈ ys, y.fingerprint ≠ d.fingerprint)
    (hinv : RollInv d (x :: ys)) :
    (∀ y ∈ ys, y.replicas ≤ y.statusAvailable) ∧
    d.replicas - unavailOf d ≤
      totalTargets ys + min x.replicas x.statusAvailable ∧
    x.replicas + totalTargets ys ≤ d.replicas + surgeOf d ∧
    x.replicas ≤ d.replicas := by
  obtain ⟨_, h2, h3, h4, h5⟩ := hinv
  rw [oldGens_cons_nil hx hys] at h2 h3
  rw [newContrib_cons hx hys] at h3
  rw [totalTargets_cons] at h4
  rw [newGens_cons_nil hx hys] at h5
  exact ⟨h2, h3, h4, h5 x (List.mem_singleton.mpr rfl)⟩

theorem rollInv_env_head {d : MDeployment} {g g1 : Generation}
    {rest : List Generation} (h : statusMove g g1)
    (hinv : RollInv d (g :: rest)) : RollInv d (g1 :: rest) := by
  have hfp : g1.fingerprint = g.fingerprint := h.2.2.2.1
  have hrep : g1.replicas = g.replicas := h.2.2.2.2.2.1
  have hamin : min g.statusAvailable g.replicas ≤ g1.statusAvailable :=
    h.2.2.2.2.2.2.1
  obtain ⟨h1, h2, h3, h4, h5⟩ := hinv
  by_cases hm : g.fingerprint = d.fingerprint
  · have hm1 : g1.fingerprint = d.fingerprint := by rw [hfp]; exact hm
    have hnc : ∀ x : Generation, x.fingerprint = d.fingerprint →
        newGens d (x :: rest) = x :: newGens d rest := by
      intro x hxm
      unfold newGens
      rw [List.filter_cons]
      simp [hxm]
    have hoc : ∀ x : Generation, x.fingerprint = d.fingerprint →
        oldGens d (x :: rest) = oldGens d rest := by
      intro x hxm
      unfold oldGens
      rw [List.filter_cons]
      simp [hxm]
    refine ⟨?_, ?_, ?_, ?_, ?_⟩
    · rw [hnc g1 hm1]
      rw [hnc g hm] at h1
      simpa using h1
    · rw [hoc g1 hm1]
      rw [hoc g hm] at h2
      exact h2
    · rw [hoc g1 hm1]
      rw [hoc g hm] at h3
      have hcon : newContrib d (g :: rest) ≤ newContrib d (g1 :: rest) := by
        unfold newContrib
        rw [hnc g hm, hnc g1 hm1]
        simp only [List.map_cons, List.sum_cons]
        have : min g.replicas g.statusAvailable ≤
            min g1.replicas g1.statusAvailable := by
          rw [hrep]
          omega
        omega
      omega
    · rw [totalTargets_cons]
      rw [totalTargets_cons] at h4
      rw [hrep]
      exact h4
    · rw [hnc g1 hm1]
      rw [hnc g hm] at h5
      intro x hx
      rcases List.mem_cons.mp hx with hx1 | hx1
      · rw [hx1, hrep]
        exact h5 g (List.mem_cons_self _ _)
      · exact h5 x (List.mem_cons_of_mem _ hx1)
  · have hm1 : ¬ g1.fingerprint = d.fingerprint := by rw [hfp]; exact hm
    have hnc : ∀ x : Generation, ¬ x.fingerprint = d.fingerprint →
        newGens d (x :: rest) = newGens d rest := by
      intro x hxm
      unfold newGens
      rw [List.filter_cons]
      simp [hxm]
    have hoc : ∀ x : Generation, ¬ x.fingerprint = d.fingerprint →
        oldGens d (x :: rest) = x :: oldGens d rest := by
      intro x hxm
      unfold oldGens
      rw [List.filter_cons]
      simp [bne_iff_ne, hxm]
    refine ⟨?_, ?_, ?_, ?_, ?_⟩
    · rw [hnc g1 hm1]
      rw [hnc g hm] at h1
      exact h1
    · rw [hoc g1 hm1]
      rw [hoc g hm] at h2
      intro x hx
      rcases List.mem_cons.mp hx with hx1 | hx1
      · rw [hx1, hrep]
        have hga := h2 g (List.mem_cons_self _ _)
        omega
      · exact h2 x (List.mem_cons_of_mem _ hx1)
    · rw [hoc g1 hm1, totalTargets_cons]
      rw [hoc g hm, totalTargets_cons] at h3
      have hcon : newContrib d (g :: rest) = newContrib d (g1 :: rest) := by
        unfold newContrib
        rw [hnc g hm, hnc g1 hm1]
      rw [hrep]
      omega
    · rw [totalTargets_cons]
      rw [totalTargets_cons] at h4
      rw [hrep]
      exact h4
    · rw [hnc g1 hm1]
      rw [hnc g hm] at h5
      exact h5

theorem rollInv_env {d : MDeployment} {l r : List Generation}
    {g g1 : Generation} (h : statusMove g g1)
    (hinv : RollInv d (l ++ g :: r)) : RollInv d (l ++ g1 :: r) := by
  have hp1 : (l ++ g :: r).Perm (g :: (l ++ r)) := List.perm_middle
  have hp2 : (g1 :: (l ++ r)).Perm (l ++ g1 :: r) := List.perm_middle.symm
  exact rollInv_perm hp2 (rollInv_env_head h (rollInv_perm hp1 hinv))

end RollingInvariant

section RollingPreservation

theorem surgeOf_rolling {d : MDeployment} {ms mu : Bound}
    (hstrat : d.strategy = .rollingUpdate ms mu) :
    surgeOf d = resolveSurge ms d.replicas := by
  simp [surgeOf, hstrat]

theorem unavailOf_rolling {d : MDeployment} {ms mu : Bound}
    (hstrat : d.strategy = .rollingUpdate ms mu) :
    unavailOf d = resolveUnavailable mu d.replicas := by
  simp [unavailOf, hstrat]

theorem totalTargets_zero_of_all {l : List Generation}
    (h : ∀ g ∈ l, g.replicas = 0) : totalTargets l = 0 := by
  induction l with
  | nil => rfl
  | cons a l ih =>
      rw [totalTargets_cons, h a (List.mem_cons_self _ _),
        ih (fun g hg => h g (List.mem_cons_of_mem _ hg))]

theorem sum_sub_distrib (ps : List (Generation × Nat))
    (h : ∀ p ∈ ps, p.2 ≤ p.1.replicas) :
    (ps.map (fun p => p.1.replicas - p.2)).sum =
      (ps.map (fun p => p.1.replicas)).sum - (ps.map (fun p => p.2)).sum ∧
    (ps.map (fun p => p.2)).sum ≤ (ps.map (fun p => p.1.replicas)).sum := by
  induction ps with
  | nil => simp
  | cons p ps ih =>
      have hh := ih (fun q hq => h q (List.mem_cons_of_mem _ hq))
      have hp := h p (List.mem_cons_self _ _)
      simp only [List.map_cons, List.sum_cons]
      omega

theorem pruneRevisions_kept_total (limit : Nat) (olds1 : List Generation) :
    totalTargets (pruneRevisions limit olds1).1 = totalTargets olds1 := by
  have htot := totalTargets_perm (pruneRevisions_perm limit olds1)
  rw [totalTargets_append] at htot
  have hz : totalTargets (pruneRevisions limit olds1).2 = 0 := by
    apply totalTargets_zero_of_all
    intro g hg
    have hc := pruneRevisions_deleted_cand hg
    simp only [isPruneCandidate, Bool.and_eq_true, beq_iff_eq] at hc
    exact hc.1
  omega

theorem scaleStep_rolling_bypass {d : MDeployment} {ms mu : Bound}
    (newG : Generation) {olds : List Generation}
    (hstrat : d.strategy = .rollingUpdate ms mu)
    (hA : olds.all (fun g => g.replicas == 0) = true) :
    scaleStep d newG olds =
      ({ newG with replicas := d.replicas }, olds,
        (if newG.replicas != d.replicas then 1 else 0), none) := by
  simp only [scaleStep, hstrat, hA]
  rfl

theorem scaleStep_rolling_down {d : MDeployment} {ms mu : Bound}
    (newG : Generation) {olds : List Generation}
    (hstrat : d.strategy = .rollingUpdate ms mu)
    (hA : olds.all (fun g => g.replicas == 0) = false)
    (hB : ¬(resolveSurge ms d.replicas = 0 ∧
      resolveUnavailable mu d.replicas = 0 ∧ d.replicas ≠ 0))
    (hC : newG.replicas ≤ newG.statusAvailable ∧
      0 < totalTargets olds + newG.replicas - d.replicas) :
    scaleStep d newG olds =
      ({ newG with replicas :=
          (if totalTargets olds + newG.replicas <
              d.replicas + resolveSurge ms d.replicas then
            min (newG.replicas + (d.replicas + resolveSurge ms d.replicas -
              (totalTargets olds + newG.replicas))) d.replicas
          else newG.replicas) },
        (scaleDownDistribution olds
            (totalTargets olds + newG.replicas - d.replicas)).map
          (fun p => { p.1 with replicas := p.1.replicas - p.2 }),
        (if (newG.replicas !=
            (if totalTargets olds + newG.replicas <
                d.replicas + resolveSurge ms d.replicas then
              min (newG.replicas + (d.replicas + resolveSurge ms d.replicas -
                (totalTargets olds + newG.replicas))) d.replicas
            else newG.replicas)) = true then 1 else 0) +
          ((scaleDownDistribution olds
              (totalTargets olds + newG.replicas - d.replicas)).filter
            (fun p => p.2 != 0)).length,
        none) := by
  simp only [scaleStep, hstrat, hA]
  rw [if_neg (by simp), if_neg hB, if_pos hC]

theorem scaleStep_rolling_nodown {d : MDeployment} {ms mu : Bound}
    (newG : Generation) {olds : List Generation}
    (hstrat : d.strategy = .rollingUpdate ms mu)
    (hA : olds.all (fun g => g.replicas == 0) = false)
    (hB : ¬(resolveSurge ms d.replicas = 0 ∧
      resolveUnavailable mu d.replicas = 0 ∧ d.replicas ≠ 0))
    (hC : ¬(newG.replicas ≤ newG.statusAvailable ∧
      0 < totalTargets olds + newG.replicas - d.replicas)) :
    scaleStep d newG olds =
      ({ newG with replicas :=
          (if totalTargets olds + newG.replicas <
              d.replicas + resolveSurge ms d.replicas then
            min (newG.replicas + (d.replicas + resolveSurge ms d.replicas -
              (totalTargets olds + newG.replicas))) d.replicas
          else newG.replicas) },
        olds,
        (if (newG.replicas !=
            (if totalTargets olds + newG.replicas <
                d.replicas + resolveSurge ms d.replicas then
              min (newG.replicas + (d.replicas + resolveSurge ms d.replicas -
                (totalTargets olds + newG.replicas))) d.replicas
            else newG.replicas)) = true then 1 else 0),
        none) := by
  simp only [scaleStep, hstrat, hA]
  rw [if_neg (by simp), if_neg hB, if_neg hC]

theorem rollInv_rollAfterEnsure {d : MDeployment} {ms mu : Bound}
    (hstrat : d.strategy = .rollingUpdate ms mu)
    (newG : Generation) (olds : List Generation) (created : Nat)
    (hnewfp : newG.fingerprint = d.fingerprint)
    (holds : ∀ x ∈ olds, x.fingerprint ≠ d.fingerprint)
    (h2 : ∀ y ∈ olds, y.replicas ≤ y.statusAvailable)
    (h3 : d.replicas - unavailOf d ≤
      totalTargets olds + min newG.replicas newG.statusAvailable)
    (h4 : newG.replicas + totalTargets olds ≤ d.replicas + surgeOf d)
    (h5 : newG.replicas ≤ d.replicas) :
    RollInv d (rollAfterEnsure d newG olds created).gens := by
  have hSr := surgeOf_rolling hstrat
  by_cases hA : olds.all (fun g => g.replicas == 0) = true
  · have hs := scaleStep_rolling_bypass newG hstrat hA
    unfold rollAfterEnsure
    simp only [hs]
    have hall0 : ∀ g ∈ olds, g.replicas = 0 := by
      intro g hg
      have := List.all_eq_true.mp hA g hg
      simpa using this
    have hkepttot :
        totalTargets (pruneRevisions d.revisionHistoryLimit olds).1 = 0 := by
      rw [pruneRevisions_kept_total]
      exact totalTargets_zero_of_all hall0
    have holdtot : totalTargets olds = 0 := totalTargets_zero_of_all hall0
    rw [holdtot] at h3
    refine rollInv_build hnewfp
      (fun y hy => holds y (pruneRevisions_kept_subset hy))
      (fun y hy => h2 y (pruneRevisions_kept_subset hy)) ?_ ?_ ?_
    · show d.replicas - unavailOf d ≤
        totalTargets (pruneRevisions d.revisionHistoryLimit olds).1 +
          min d.replicas newG.statusAvailable
      rw [hkepttot]
      omega
    · show d.replicas +
        totalTargets (pruneRevisions d.revisionHistoryLimit olds).1 ≤
          d.replicas + surgeOf d
      rw [hkepttot]
      omega
    · show d.replicas ≤ d.replicas
      exact Nat.le_refl _
  · rw [Bool.not_eq_true] at hA
    by_cases hB : resolveSurge ms d.replicas = 0 ∧
        resolveUnavailable mu d.replicas = 0 ∧ d.replicas ≠ 0
    · have hpend : ∃ g ∈ olds, g.replicas ≠ 0 := by
        by_contra hcon
        push_neg at hcon
        have : olds.all (fun g => g.replicas == 0) = true :=
          List.all_eq_true.mpr (fun g hg => by simpa using hcon g hg)
        rw [this] at hA
        cases hA
      have hs := scaleStep_invalid newG hstrat hB.1 hB.2.1 hB.2.2 hpend
      unfold rollAfterEnsure
      simp only [hs]
      exact rollInv_build hnewfp holds h2 h3 (by omega) h5
    · by_cases hC : newG.replicas ≤ newG.statusAvailable ∧
          0 < totalTargets olds + newG.replicas - d.replicas
      · have hs := scaleStep_rolling_down newG hstrat hA hB hC
        unfold rollAfterEnsure
        simp only [hs]
        set budget := totalTargets olds + newG.replicas - d.replicas
          with hbudgetdef
        set target1 := (if totalTargets olds + newG.replicas <
              d.replicas + resolveSurge ms d.replicas then
            min (newG.replicas + (d.replicas + resolveSurge ms d.replicas -
              (totalTargets olds + newG.replicas))) d.replicas
          else newG.replicas) with htarget1def
        set pairs := scaleDownDistribution olds budget with hpairsdef
        set olds1 := pairs.map
          (fun p => { p.1 with replicas := p.1.replicas - p.2 }) with holds1def
        have hbud_le : budget ≤ totalTargets olds := by omega
        have hcons := scaleDownDistribution_conserves olds budget hbud_le
        rw [← hpairsdef] at hcons
        have hmemsrc : ∀ x ∈ olds1, ∃ p, p ∈ pairs ∧
            x = { p.1 with replicas := p.1.replicas - p.2 } := by
          intro x hx
          rw [holds1def] at hx
          rcases List.mem_map.mp hx with ⟨p, hp, hEq⟩
          exact ⟨p, hp, hEq.symm⟩
        have holds1fp : ∀ x ∈ olds1, x.fingerprint ≠ d.fingerprint := by
          intro x hx
          rcases hmemsrc x hx with ⟨p, hp, hEq⟩
          rw [hEq]
          exact holds p.1 (scaleDownDistribution_mem_fst (hpairsdef ▸ hp))
        have holds1avail : ∀ x ∈ olds1, x.replicas ≤ x.statusAvailable := by
          intro x hx
          rcases hmemsrc x hx with ⟨p, hp, hEq⟩
          have hmem : p.1 ∈ olds :=
            scaleDownDistribution_mem_fst (hpairsdef ▸ hp)
          have := h2 p.1 hmem
          rw [hEq]
          show p.1.replicas - p.2 ≤ p.1.statusAvailable
          omega
        have holds1tot : totalTargets olds1 = totalTargets olds - budget := by
          have hmap : olds1.map (fun g => g.replicas) =
              pairs.map (fun p => p.1.replicas - p.2) := by
            rw [holds1def, List.map_map]
            rfl
          have hsub := sum_sub_distrib pairs hcons.2.1
          have hfstsum : (pairs.map (fun p => p.1.replicas)).sum =
              totalTargets olds := by
            have hmm : pairs.map (fun p => p.1.replicas) =
                (pairs.map (fun p => p.1)).map (fun g => g.replicas) := by
              rw [List.map_map]
              rfl
            rw [hmm]
            exact totalTargets_perm hcons.2.2
          show (olds1.map (fun g => g.replicas)).sum =
            totalTargets olds - budget
          rw [hmap, hsub.1, hfstsum, hcons.1]
        have hkepttot : totalTargets
            (pruneRevisions d.revisionHistoryLimit olds1).1 =
              totalTargets olds - budget := by
          rw [pruneRevisions_kept_total]
          exact holds1tot
        have hfacts : newG.replicas ≤ target1 ∧ target1 ≤ d.replicas ∧
            target1 + totalTargets olds ≤ d.replicas + surgeOf d := by
          rw [htarget1def]
          by_cases hup : totalTargets olds + newG.replicas <
              d.replicas + resolveSurge ms d.replicas
          · rw [if_pos hup]
            omega
          · rw [if_neg hup]
            omega
        refine rollInv_build hnewfp
          (fun y hy => holds1fp y (pruneRevisions_kept_subset hy))
          (fun y hy => holds1avail y (pruneRevisions_kept_subset hy)) ?_ ?_ ?_
        · show d.replicas - unavailOf d ≤
            totalTargets (pruneRevisions d.revisionHistoryLimit olds1).1 +
              min target1 newG.statusAvailable
          rw [hkepttot]
          omega
        · show target1 +
            totalTargets (pruneRevisions d.revisionHistoryLimit olds1).1 ≤
              d.replicas + surgeOf d
          rw [hkepttot]
          omega
        · exact hfacts.2.1
      · have hs := scaleStep_rolling_nodown newG hstrat hA hB hC
        unfold rollAfterEnsure
        simp only [hs]
        set target1 := (if totalTargets olds + newG.replicas <
              d.replicas + resolveSurge ms d.replicas then
            min (newG.replicas + (d.replicas + resolveSurge ms d.replicas -
              (totalTargets olds + newG.replicas))) d.replicas
          else newG.replicas) with htarget1def
        have hkepttot : totalTargets
            (pruneRevisions d.revisionHistoryLimit olds).1 =
              totalTargets olds := pruneRevisions_kept_total _ _
        have hfacts : newG.replicas ≤ target1 ∧ target1 ≤ d.replicas ∧
            target1 + totalTargets olds ≤ d.replicas + surgeOf d := by
          rw [htarget1def]
          by_cases hup : totalTargets olds + newG.replicas <
              d.replicas + resolveSurge ms d.replicas
          · rw [if_pos hup]
            omega
          · rw [if_neg hup]
            omega
        refine rollInv_build hnewfp
          (fun y hy => holds y (pruneRevisions_kept_subset hy))
          (fun y hy => h2 y (pruneRevisions_kept_subset hy)) ?_ ?_ ?_
        · show d.replicas - unavailOf d ≤
            totalTargets (pruneRevisions d.revisionHistoryLimit olds).1 +
              min target1 newG.statusAvailable
          rw [hkepttot]
          omega
        · show target1 +
            totalTargets (pruneRevisions d.revisionHistoryLimit olds).1 ≤
              d.replicas + surgeOf d
          rw [hkepttot]
          omega
        · exact hfacts.2.1

theorem rollInv_reconcile {d : MDeployment} {ms mu : Bound}
    (hstrat : d.strategy = .rollingUpdate ms mu)
    (gens : List Generation) (i t : Nat) (hinv : RollInv d gens) :
    RollInv d (reconcile d gens i t).gens := by
  rcases hpick : pickNewGen d gens with _ | g
  · rw [reconcile_eq_none i t hpick]
    have hnil : newGens d gens = [] := pickNewGen_eq_none.mp hpick
    have holds : ∀ x ∈ gens, x.fingerprint ≠ d.fingerprint :=
      reconcile_olds_of_none hpick
    have holdeq : oldGens d gens = gens :=
      List.filter_eq_self.mpr (fun x hx => by simp [bne_iff_ne, holds x hx])
    obtain ⟨h1, h2, h3, h4, h5⟩ := hinv
    rw [holdeq] at h2 h3
    have hcon0 : newContrib d gens = 0 := by
      unfold newContrib
      rw [hnil]
      rfl
    rw [hcon0] at h3
    refine rollInv_rollAfterEnsure hstrat _ gens 1 rfl holds h2 ?_ ?_ ?_
    · show d.replicas - unavailOf d ≤ totalTargets gens + min 0 0
      omega
    · show (0 : Nat) + totalTargets gens ≤ d.replicas + surgeOf d
      omega
    · show (0 : Nat) ≤ d.replicas
      omega
  · have h1 := hinv.1
    have hone : newGens d gens = [g] := pickNewGen_unique h1 hpick
    have hmem := (pickNewGen_mem hpick).1
    have hfp := (pickNewGen_mem hpick).2
    rw [reconcile_eq_some i t hpick]
    have hperm : gens.Perm (g :: gens.erase g) := List.perm_cons_erase hmem
    have herased : newGens d (gens.erase g) = [] := newGens_erase_nil hmem hone
    have holds : ∀ x ∈ gens.erase g, x.fingerprint ≠ d.fingerprint := by
      intro x hx hEq
      have : x ∈ newGens d (gens.erase g) := mem_newGens.mpr ⟨hx, hEq⟩
      rw [herased] at this
      cases this
    have hp := rollInv_cons_pieces hfp holds (rollInv_perm hperm hinv)
    exact rollInv_rollAfterEnsure hstrat g (gens.erase g) 0 hfp holds
      hp.1 hp.2.1 hp.2.2.1 hp.2.2.2

theorem rollInv_step {d : MDeployment} {ms mu : Bound}
    (hstrat : d.strategy = .rollingUpdate ms mu)
    {s s1 : List Generation} (hstep : Step d s s1) (hinv : RollInv d s) :
    RollInv d s1 :=
  match hstep with
  | .reconcileStep gens i t => rollInv_reconcile hstrat gens i t hinv
  | .envStep _ _ _ _ h => rollInv_env h hinv

theorem sum_map_le (l : List Generation) (f g : Generation → Nat)
    (h : ∀ x ∈ l, f x ≤ g x) : (l.map f).sum ≤ (l.map g).sum := by
  induction l with
  | nil => simp
  | cons a l ih =>
      simp only [List.map_cons, List.sum_cons]
      have h1 := h a (List.mem_cons_self _ _)
      have h2 := ih (fun x hx => h x (List.mem_cons_of_mem _ hx))
      omega

end RollingPreservation

section ClaimC1

/-- C1: For every deployment with a RollingUpdate strategy and every
state reachable (through reconcile invocations and environment status
moves) from a state satisfying the rolling invariant, the sum of all
generations' replica targets never exceeds `R + surgeAmount`, and the
total status availability never falls below `R - unavailableAmount`. -/
theorem rolling_bounded_surge_unavailable (d : MDeployment) (ms mu : Bound)
    (hstrat : d.strategy = .rollingUpdate ms mu)
    (s0 s : List Generation) (hinv : RollInv d s0)
    (hreach : Relation.ReflTransGen (Step d) s0 s) :
    totalTargets s ≤ d.replicas + resolveSurge ms d.replicas ∧
    d.replicas - resolveUnavailable mu d.replicas ≤ totalAvailable s := by
  have hinvs : RollInv d s := by
    induction hreach with
    | refl => exact hinv
    | tail _ hstep ih => exact rollInv_step hstrat hstep ih
  obtain ⟨_, h2, h3, h4, _⟩ := hinvs
  constructor
  · rw [← surgeOf_rolling hstrat]
    exact h4
  · rw [← unavailOf_rolling hstrat]
    have hpart : (newGens d s ++ oldGens d s).Perm s :=
      List.filter_append_perm _ s
    have hsplit := totalAvailable_perm hpart
    rw [totalAvailable_append] at hsplit
    have hold_av : totalTargets (oldGens d s) ≤ totalAvailable (oldGens d s) :=
      sum_map_le _ _ _ h2
    have hnew_av : newContrib d s ≤ totalAvailable (newGens d s) :=
      sum_map_le _ _ _ (fun x _ => Nat.min_le_right _ _)
    omega

/-- Witness for C1: the scenario deployment starting from the converged
old generation satisfies the invariant, and after the first reconcile of
the rollout the total target is within `R + surge = 3` and availability
within `R - unavailable = 2`. -/
theorem rolling_bounded_surge_unavailable_witness :
    totalTargets (reconcile dScenario [oldGenAt 2 2 2] 11 5).gens ≤
      dScenario.replicas + resolveSurge (.absolute 1) dScenario.replicas ∧
    dScenario.replicas - resolveUnavailable (.absolute 0) dScenario.replicas ≤
      totalAvailable (reconcile dScenario [oldGenAt 2 2 2] 11 5).gens :=
  rolling_bounded_surge_unavailable dScenario (.absolute 1) (.absolute 0) rfl
    [oldGenAt 2 2 2] (reconcile dScenario [oldGenAt 2 2 2] 11 5).gens
    (by decide)
    (Relation.ReflTransGen.single (Step.reconcileStep [oldGenAt 2 2 2] 11 5))

end ClaimC1

section SecondPass

theorem pruneRevisions_idem (limit : Nat) (olds1 : List Generation) :
    (pruneRevisions limit (pruneRevisions limit olds1).1).2 = [] := by
  set cand := List.insertionSort timeLe (olds1.filter isPruneCandidate) with hcand
  set keep := olds1.filter (fun g => !isPruneCandidate g) with hkeep
  set k := min (olds1.length - limit) cand.length with hk
  have hcandAll : ∀ g ∈ cand, isPruneCandidate g = true := by
    intro g hg
    rw [hcand] at hg
    exact List.of_mem_filter ((List.perm_insertionSort timeLe _).subset hg)
  show ((List.insertionSort timeLe
      ((keep ++ cand.drop k).filter isPruneCandidate)).take
    (min ((keep ++ cand.drop k).length - limit)
      (List.insertionSort timeLe
        ((keep ++ cand.drop k).filter isPruneCandidate)).length)) = []
  have hfilter2 : (keep ++ cand.drop k).filter isPruneCandidate = cand.drop k := by
    rw [List.filter_append]
    have h1 : keep.filter isPruneCandidate = [] := by
      rw [List.filter_eq_nil_iff]
      intro a ha
      rw [hkeep] at ha
      have := List.of_mem_filter ha
      simp only [Bool.not_eq_true'] at this
      simp [this]
    have h2 : (cand.drop k).filter isPruneCandidate = cand.drop k :=
      List.filter_eq_self.mpr (fun a ha => hcandAll a (List.mem_of_mem_drop ha))
    rw [h1, h2, List.nil_append]
  have hsortlen : (List.insertionSort timeLe
      ((keep ++ cand.drop k).filter isPruneCandidate)).length =
        cand.length - k := by
    calc (List.insertionSort timeLe
        ((keep ++ cand.drop k).filter isPruneCandidate)).length
        = ((keep ++ cand.drop k).filter isPruneCandidate).length :=
          (List.perm_insertionSort _ _).length_eq
      _ = (cand.drop k).length := by rw [hfilter2]
      _ = cand.length - k := List.length_drop _ _
  have hpartition : cand.length + keep.length = olds1.length := by
    have hp := List.filter_append_perm isPruneCandidate olds1
    have hlen := hp.length_eq
    rw [List.length_append] at hlen
    have hc : cand.length = (olds1.filter isPruneCandidate).length := by
      rw [hcand]
      exact (List.perm_insertionSort _ _).length_eq
    rw [hkeep]
    omega
  have hmin0 : min ((keep ++ cand.drop k).length - limit)
      (List.insertionSort timeLe
        ((keep ++ cand.drop k).filter isPruneCandidate)).length = 0 := by
    rw [hsortlen, List.length_append, List.length_drop]
    omega
  rw [hmin0]
  exact List.take_zero _

theorem reconcile_cons (d : MDeployment) (x : Generation)
    (ys : List Generation) (i t : Nat)
    (hx : x.fingerprint = d.fingerprint)
    (hys : ∀ y ∈ ys, y.fingerprint ≠ d.fingerprint) :
    reconcile d (x :: ys) i t = rollAfterEnsure d x ys 0 := by
  rw [reconcile_eq_some i t
    (pickNewGen_of_singleton (newGens_cons_nil hx hys)), List.erase_cons_head]

theorem copy_zero_eq {g : Generation} (h : g.replicas = 0) :
    { g with replicas := 0 } = g := by
  cases g
  simp only at h
  simp [h]

theorem pruneRevisions_keeps_active (limit : Nat) {olds : List Generation}
    {g : Generation} (hg : g ∈ olds) (hnc : isPruneCandidate g = false) :
    g ∈ (pruneRevisions limit olds).1 := by
  refine List.mem_append_left _ ?_
  refine List.mem_filter.mpr ⟨hg, ?_⟩
  simp [hnc]

theorem scaleDown_olds1_total (olds : List Generation) (budget : Nat)
    (hb : budget ≤ totalTargets olds) :
    totalTargets ((scaleDownDistribution olds budget).map
      (fun p => { p.1 with replicas := p.1.replicas - p.2 })) =
      totalTargets olds - budget := by
  have hcons := scaleDownDistribution_conserves olds budget hb
  have hmap : (((scaleDownDistribution olds budget).map
      (fun p => { p.1 with replicas := p.1.replicas - p.2 })).map
        (fun g => g.replicas)) =
      (scaleDownDistribution olds budget).map (fun p => p.1.replicas - p.2) := by
    rw [List.map_map]
    rfl
  have hsub := sum_sub_distrib _ hcons.2.1
  have hfstsum : ((scaleDownDistribution olds budget).map
      (fun p => p.1.replicas)).sum = totalTargets olds := by
    have hmm : (scaleDownDistribution olds budget).map (fun p => p.1.replicas) =
        ((scaleDownDistribution olds budget).map (fun p => p.1)).map
          (fun g => g.replicas) := by
      rw [List.map_map]
      rfl
    rw [hmm]
    exact totalTargets_perm hcons.2.2
  calc totalTargets ((scaleDownDistribution olds budget).map
        (fun p => { p.1 with replicas := p.1.replicas - p.2 }))
      = ((scaleDownDistribution olds budget).map
          (fun p => p.1.replicas - p.2)).sum := by
        unfold totalTargets
        rw [hmap]
    _ = ((scaleDownDistribution olds budget).map (fun p => p.1.replicas)).sum -
          ((scaleDownDistribution olds budget).map (fun p => p.2)).sum := hsub.1
    _ = totalTargets olds - budget := by rw [hfstsum, hcons.1]

theorem scaleDown_olds1_shape {olds : List Generation} {budget : Nat}
    {x : Generation}
    (hx : x ∈ (scaleDownDistribution olds budget).map
      (fun p => { p.1 with replicas := p.1.replicas - p.2 })) :
    ∃ p, p ∈ scaleDownDistribution olds budget ∧ p.1 ∈ olds ∧
      x = { p.1 with replicas := p.1.replicas - p.2 } := by
  rcases List.mem_map.mp hx with ⟨p, hp, hEq⟩
  exact ⟨p, hp, scaleDownDistribution_mem_fst hp, hEq.symm⟩

theorem secondPass_roll_bypass {d : MDeployment} {ms mu : Bound}
    (hstrat : d.strategy = .rollingUpdate ms mu)
    (newG : Generation) (olds : List Generation) (created i2 t2 : Nat)
    (hnewfp : newG.fingerprint = d.fingerprint)
    (holds : ∀ x ∈ olds, x.fingerprint ≠ d.fingerprint)
    (hA : olds.all (fun g => g.replicas == 0) = true) :
    SecondPassOk d newG olds created i2 t2 := by
  have hs := scaleStep_rolling_bypass newG hstrat hA
  have hgens1 : (rollAfterEnsure d newG olds created).gens =
      { newG with replicas := d.replicas } ::
        (pruneRevisions d.revisionHistoryLimit olds).1 := by
    unfold rollAfterEnsure
    simp only [hs]
  have hnewGen1 : (rollAfterEnsure d newG olds created).newGen =
      { newG with replicas := d.replicas } := by
    unfold rollAfterEnsure
    simp only [hs]
  have hall0 : ∀ g ∈ olds, g.replicas = 0 := by
    intro g hg
    have := List.all_eq_true.mp hA g hg
    simpa using this
  have hkeptfp : ∀ y ∈ (pruneRevisions d.revisionHistoryLimit olds).1,
      y.fingerprint ≠ d.fingerprint :=
    fun y hy => holds y (pruneRevisions_kept_subset hy)
  have hA2 : (pruneRevisions d.revisionHistoryLimit olds).1.all
      (fun g => g.replicas == 0) = true :=
    List.all_eq_true.mpr
      (fun g hg => by simp [hall0 g (pruneRevisions_kept_subset hg)])
  have hs2 := scaleStep_rolling_bypass { newG with replicas := d.replicas }
    hstrat hA2
  unfold SecondPassOk
  rw [hgens1, hnewGen1,
    reconcile_cons d { newG with replicas := d.replicas }
      (pruneRevisions d.revisionHistoryLimit olds).1 i2 t2 hnewfp hkeptfp]
  refine ⟨rollAfterEnsure_createCount _ _ _ _, ?_, ?_, ?_⟩
  · show (rollAfterEnsure d _ _ 0).deleteCount = 0
    unfold rollAfterEnsure
    simp only [hs2]
    rw [pruneRevisions_idem]
    rfl
  · show (rollAfterEnsure d _ _ 0).updateCount ≤ 1
    unfold rollAfterEnsure
    simp only [hs2]
    split <;> omega
  · show _ ≤ (rollAfterEnsure d _ _ 0).newGen.replicas
    unfold rollAfterEnsure
    simp only [hs2]
    exact Nat.le_refl _

theorem secondPass_roll_error {d : MDeployment} {ms mu : Bound}
    (hstrat : d.strategy = .rollingUpdate ms mu)
    (newG : Generation) (olds : List Generation) (created i2 t2 : Nat)
    (hnewfp : newG.fingerprint = d.fingerprint)
    (holds : ∀ x ∈ olds, x.fingerprint ≠ d.fingerprint)
    (hA : olds.all (fun g => g.replicas == 0) = false)
    (hB : resolveSurge ms d.replicas = 0 ∧
      resolveUnavailable mu d.replicas = 0 ∧ d.replicas ≠ 0) :
    SecondPassOk d newG olds created i2 t2 := by
  have hpend : ∃ g ∈ olds, g.replicas ≠ 0 := by
    by_contra hcon
    push_neg at hcon
    have : olds.all (fun g => g.replicas == 0) = true :=
      List.all_eq_true.mpr (fun g hg => by simpa using hcon g hg)
    rw [this] at hA
    cases hA
  have hs := scaleStep_invalid newG hstrat hB.1 hB.2.1 hB.2.2 hpend
  have hgens1 : (rollAfterEnsure d newG olds created).gens = newG :: olds := by
    unfold rollAfterEnsure
    simp only [hs]
  have hnewGen1 : (rollAfterEnsure d newG olds created).newGen = newG := by
    unfold rollAfterEnsure
    simp only [hs]
  unfold SecondPassOk
  rw [hgens1, hnewGen1, reconcile_cons d _ _ i2 t2 hnewfp holds]
  refine ⟨rollAfterEnsure_createCount _ _ _ _, ?_, ?_, ?_⟩
  · show (rollAfterEnsure d newG olds 0).deleteCount = 0
    unfold rollAfterEnsure
    simp only [hs]
  · show (rollAfterEnsure d newG olds 0).updateCount ≤ 1
    unfold rollAfterEnsure
    simp only [hs]
    omega
  · show newG.replicas ≤ (rollAfterEnsure d newG olds 0).newGen.replicas
    unfold rollAfterEnsure
    simp only [hs]
    exact Nat.le_refl _

theorem if_one_zero_le_one (b : Prop) [Decidable b] :
    (if b then (1 : Nat) else 0) ≤ 1 := by
  split <;> omega

theorem secondPass_roll_down {d : MDeployment} {ms mu : Bound}
    (hstrat : d.strategy = .rollingUpdate ms mu)
    (newG : Generation) (olds : List Generation) (created i2 t2 : Nat)
    (hnewfp : newG.fingerprint = d.fingerprint)
    (holds : ∀ x ∈ olds, x.fingerprint ≠ d.fingerprint)
    (ha : newG.statusAvailable ≤ newG.replicas)
    (hr : newG.replicas ≤ d.replicas)
    (hA : olds.all (fun g => g.replicas == 0) = false)
    (hB : ¬(resolveSurge ms d.replicas = 0 ∧
      resolveUnavailable mu d.replicas = 0 ∧ d.replicas ≠ 0))
    (hC : newG.replicas ≤ newG.statusAvailable ∧
      0 < totalTargets olds + newG.replicas - d.replicas) :
    SecondPassOk d newG olds created i2 t2 := by
  have hs := scaleStep_rolling_down newG hstrat hA hB hC
  set budget := totalTargets olds + newG.replicas - d.replicas with hbudgetdef
  set target1 := (if totalTargets olds + newG.replicas <
        d.replicas + resolveSurge ms d.replicas then
      min (newG.replicas + (d.replicas + resolveSurge ms d.replicas -
        (totalTargets olds + newG.replicas))) d.replicas
    else newG.replicas) with htarget1def
  set pairs := scaleDownDistribution olds budget with hpairsdef
  set olds1 := pairs.map (fun p => { p.1 with replicas := p.1.replicas - p.2 })
    with holds1def
  have hgens1 : (rollAfterEnsure d newG olds created).gens =
      { newG with replicas := target1 } ::
        (pruneRevisions d.revisionHistoryLimit olds1).1 := by
    unfold rollAfterEnsure
    simp only [hs]
  have hnewGen1 : (rollAfterEnsure d newG olds created).newGen =
      { newG with replicas := target1 } := by
    unfold rollAfterEnsure
    simp only [hs]
  have hbud_le : budget ≤ totalTargets olds := by omega
  have holds1fp : ∀ x ∈ olds1, x.fingerprint ≠ d.fingerprint := by
    intro x hx
    rcases scaleDown_olds1_shape (holds1def ▸ hx) with ⟨p, _, hpm, hEq⟩
    rw [hEq]
    exact holds p.1 hpm
  have hkeptfp : ∀ y ∈ (pruneRevisions d.revisionHistoryLimit olds1).1,
      y.fingerprint ≠ d.fingerprint :=
    fun y hy => holds1fp y (pruneRevisions_kept_subset hy)
  have holds1tot : totalTargets olds1 = totalTargets olds - budget := by
    rw [holds1def, hpairsdef]
    exact scaleDown_olds1_total olds budget hbud_le
  have hkepttot : totalTargets (pruneRevisions d.revisionHistoryLimit olds1).1 =
      totalTargets olds - budget := by
    rw [pruneRevisions_kept_total]
    exact holds1tot
  have ht_facts : newG.replicas ≤ target1 ∧ target1 ≤ d.replicas := by
    rw [htarget1def]
    by_cases hup : totalTargets olds + newG.replicas <
        d.replicas + resolveSurge ms d.replicas
    · rw [if_pos hup]
      omega
    · rw [if_neg hup]
      omega
  unfold SecondPassOk
  rw [hgens1, hnewGen1,
    reconcile_cons d { newG with replicas := target1 }
      (pruneRevisions d.revisionHistoryLimit olds1).1 i2 t2 hnewfp hkeptfp]
  by_cases hA2 : (pruneRevisions d.revisionHistoryLimit olds1).1.all
      (fun g => g.replicas == 0) = true
  · have hkept0 : ∀ g ∈ (pruneRevisions d.revisionHistoryLimit olds1).1,
        g.replicas = 0 := by
      intro g hg
      have := List.all_eq_true.mp hA2 g hg
      simpa using this
    have hkepttot0 :
        totalTargets (pruneRevisions d.revisionHistoryLimit olds1).1 = 0 :=
      totalTargets_zero_of_all hkept0
    have htR : target1 = d.replicas := by
      rw [htarget1def]
      by_cases hup : totalTargets olds + newG.replicas <
          d.replicas + resolveSurge ms d.replicas
      · rw [if_pos hup]
        omega
      · rw [if_neg hup]
        omega
    have hs2 := scaleStep_rolling_bypass { newG with replicas := target1 }
      hstrat hA2
    refine ⟨rollAfterEnsure_createCount _ _ _ _, ?_, ?_, ?_⟩
    · show (rollAfterEnsure d { newG with replicas := target1 }
        (pruneRevisions d.revisionHistoryLimit olds1).1 0).deleteCount = 0
      unfold rollAfterEnsure
      simp only [hs2]
      rw [pruneRevisions_idem]
      rfl
    · show (rollAfterEnsure d { newG with replicas := target1 }
        (pruneRevisions d.revisionHistoryLimit olds1).1 0).updateCount ≤ 1
      unfold rollAfterEnsure
      simp only [hs2]
      split <;> omega
    · show ({ newG with replicas := target1 } : Generation).replicas ≤
        (rollAfterEnsure d { newG with replicas := target1 }
          (pruneRevisions d.revisionHistoryLimit olds1).1 0).newGen.replicas
      unfold rollAfterEnsure
      simp only [hs2]
      show target1 ≤ d.replicas
      exact ht_facts.2
  · rw [Bool.not_eq_true] at hA2
    have hC2 : ¬(({ newG with replicas := target1 } : Generation).replicas ≤
        ({ newG with replicas := target1 } : Generation).statusAvailable ∧
        0 < totalTargets (pruneRevisions d.revisionHistoryLimit olds1).1 +
          ({ newG with replicas := target1 } : Generation).replicas -
            d.replicas) := by
      show ¬(target1 ≤ newG.statusAvailable ∧
        0 < totalTargets (pruneRevisions d.revisionHistoryLimit olds1).1 +
          target1 - d.replicas)
      rintro ⟨hg2, hb2⟩
      omega
    have hs2 := scaleStep_rolling_nodown { newG with replicas := target1 }
      hstrat hA2 hB hC2
    refine ⟨rollAfterEnsure_createCount _ _ _ _, ?_, ?_, ?_⟩
    · show (rollAfterEnsure d { newG with replicas := target1 }
        (pruneRevisions d.revisionHistoryLimit olds1).1 0).deleteCount = 0
      unfold rollAfterEnsure
      simp only [hs2]
      rw [pruneRevisions_idem]
      rfl
    · show (rollAfterEnsure d { newG with replicas := target1 }
        (pruneRevisions d.revisionHistoryLimit olds1).1 0).updateCount ≤ 1
      unfold rollAfterEnsure
      simp only [hs2]
      exact if_one_zero_le_one _
    · show ({ newG with replicas := target1 } : Generation).replicas ≤
        (rollAfterEnsure d { newG with replicas := target1 }
          (pruneRevisions d.revisionHistoryLimit olds1).1 0).newGen.replicas
      unfold rollAfterEnsure
      simp only [hs2]
      show target1 ≤
        (if totalTargets (pruneRevisions d.revisionHistoryLimit olds1).1 +
            target1 < d.replicas + resolveSurge ms d.replicas then
          min (target1 + (d.replicas + resolveSurge ms d.replicas -
            (totalTargets (pruneRevisions d.revisionHistoryLimit olds1).1 +
              target1))) d.replicas
        else target1)
      by_cases hup2 : totalTargets (pruneRevisions d.revisionHistoryLimit olds1).1 +
          target1 < d.replicas + resolveSurge ms d.replicas
      · rw [if_pos hup2]
        have := ht_facts.2
        omega
      · rw [if_neg hup2]

theorem secondPass_roll_nodown {d : MDeployment} {ms mu : Bound}
    (hstrat : d.strategy = .rollingUpdate ms mu)
    (newG : Generation) (olds : List Generation) (created i2 t2 : Nat)
    (hnewfp : newG.fingerprint = d.fingerprint)
    (holds : ∀ x ∈ olds, x.fingerprint ≠ d.fingerprint)
    (ha : newG.statusAvailable ≤ newG.replicas)
    (hr : newG.replicas ≤ d.replicas)
    (hA : olds.all (fun g => g.replicas == 0) = false)
    (hB : ¬(resolveSurge ms d.replicas = 0 ∧
      resolveUnavailable mu d.replicas = 0 ∧ d.replicas ≠ 0))
    (hC : ¬(newG.replicas ≤ newG.statusAvailable ∧
      0 < totalTargets olds + newG.replicas - d.replicas)) :
    SecondPassOk d newG olds created i2 t2 := by
  have hs := scaleStep_rolling_nodown newG hstrat hA hB hC
  set target1 := (if totalTargets olds + newG.replicas <
        d.replicas + resolveSurge ms d.replicas then
      min (newG.replicas + (d.replicas + resolveSurge ms d.replicas -
        (totalTargets olds + newG.replicas))) d.replicas
    else newG.replicas) with htarget1def
  have hgens1 : (rollAfterEnsure d newG olds created).gens =
      { newG with replicas := target1 } ::
        (pruneRevisions d.revisionHistoryLimit olds).1 := by
    unfold rollAfterEnsure
    simp only [hs]
  have hnewGen1 : (rollAfterEnsure d newG olds created).newGen =
      { newG with replicas := target1 } := by
    unfold rollAfterEnsure
    simp only [hs]
  have hkeptfp : ∀ y ∈ (pruneRevisions d.revisionHistoryLimit olds).1,
      y.fingerprint ≠ d.fingerprint :=
    fun y hy => holds y (pruneRevisions_kept_subset hy)
  have hkepttot : totalTargets (pruneRevisions d.revisionHistoryLimit olds).1 =
      totalTargets olds := pruneRevisions_kept_total _ _
  have ht_facts : newG.replicas ≤ target1 ∧ target1 ≤ d.replicas := by
    rw [htarget1def]
    by_cases hup : totalTargets olds + newG.replicas <
        d.replicas + resolveSurge ms d.replicas
    · rw [if_pos hup]
      omega
    · rw [if_neg hup]
      omega
  have hpend : ∃ g ∈ olds, g.replicas ≠ 0 := by
    by_contra hcon
    push_neg at hcon
    have : olds.all (fun g => g.replicas == 0) = true :=
      List.all_eq_true.mpr (fun g hg => by simpa using hcon g hg)
    rw [this] at hA
    cases hA
  have hA2 : (pruneRevisions d.revisionHistoryLimit olds).1.all
      (fun g => g.replicas == 0) = false := by
    rcases hpend with ⟨g, hg, hgr⟩
    have hnc : isPruneCandidate g = false := by
      simp [isPruneCandidate, hgr]
    have hmemk := pruneRevisions_keeps_active d.revisionHistoryLimit hg hnc
    rcases hallb : (pruneRevisions d.revisionHistoryLimit olds).1.all
        (fun g => g.replicas == 0) with _ | _
    · rfl
    · exfalso
      have := List.all_eq_true.mp hallb g hmemk
      exact hgr (by simpa using this)
  have hC2 : ¬(target1 ≤ newG.statusAvailable ∧
      0 < totalTargets (pruneRevisions d.revisionHistoryLimit olds).1 +
        target1 - d.replicas) := by
    rintro ⟨hg2, hb2⟩
    have heq : target1 = newG.replicas := by omega
    have hgate1 : newG.replicas ≤ newG.statusAvailable := by omega
    have hbud0 : ¬ 0 < totalTargets olds + newG.replicas - d.replicas :=
      fun hb => hC ⟨hgate1, hb⟩
    omega
  have hs2 := scaleStep_rolling_nodown { newG with replicas := target1 }
    hstrat hA2 hB hC2
  unfold SecondPassOk
  rw [hgens1, hnewGen1,
    reconcile_cons d { newG with replicas := target1 }
      (pruneRevisions d.revisionHistoryLimit olds).1 i2 t2 hnewfp hkeptfp]
  refine ⟨rollAfterEnsure_createCount _ _ _ _, ?_, ?_, ?_⟩
  · show (rollAfterEnsure d { newG with replicas := target1 }
      (pruneRevisions d.revisionHistoryLimit olds).1 0).deleteCount = 0
    unfold rollAfterEnsure
    simp only [hs2]
    rw [pruneRevisions_idem]
    rfl
  · show (rollAfterEnsure d { newG with replicas := target1 }
      (pruneRevisions d.revisionHistoryLimit olds).1 0).updateCount ≤ 1
    unfold rollAfterEnsure
    simp only [hs2]
    exact if_one_zero_le_one _
  · show ({ newG with replicas := target1 } : Generation).replicas ≤
      (rollAfterEnsure d { newG with replicas := target1 }
        (pruneRevisions d.revisionHistoryLimit olds).1 0).newGen.replicas
    unfold rollAfterEnsure
    simp only [hs2]
    show target1 ≤
      (if totalTargets (pruneRevisions d.revisionHistoryLimit olds).1 +
          target1 < d.replicas + resolveSurge ms d.replicas then
        min (target1 + (d.replicas + resolveSurge ms d.replicas -
          (totalTargets (pruneRevisions d.revisionHistoryLimit olds).1 +
            target1))) d.replicas
      else target1)
    by_cases hup2 : totalTargets (pruneRevisions d.revisionHistoryLimit olds).1 +
        target1 < d.replicas + resolveSurge ms d.replicas
    · rw [if_pos hup2]
      have := ht_facts.2
      omega
    · rw [if_neg hup2]

theorem scaleStep_recreate_raise {d : MDeployment} (newG : Generation)
    {olds : List Generation} (hstrat : d.strategy = .recreate)
    (hall : olds.all (fun g => g.statusReplicas == 0) = true) :
    scaleStep d newG olds =
      ({ newG with replicas := d.replicas },
        olds.map (fun g => { g with replicas := 0 }),
        (olds.filter (fun g => g.replicas != 0)).length +
          (if (newG.replicas != d.replicas) = true then 1 else 0), none) := by
  simp only [scaleStep, hstrat, hall]
  rfl

theorem scaleStep_recreate_wait {d : MDeployment} (newG : Generation)
    {olds : List Generation} (hstrat : d.strategy = .recreate)
    (hall : olds.all (fun g => g.statusReplicas == 0) = false) :
    scaleStep d newG olds =
      (newG, olds.map (fun g => { g with replicas := 0 }),
        (olds.filter (fun g => g.replicas != 0)).length, none) := by
  simp only [scaleStep, hstrat, hall, Bool.false_eq_true, if_false]

theorem secondPass_recreate {d : MDeployment}
    (hstrat : d.strategy = .recreate)
    (newG : Generation) (olds : List Generation) (created i2 t2 : Nat)
    (hnewfp : newG.fingerprint = d.fingerprint)
    (holds : ∀ x ∈ olds, x.fingerprint ≠ d.fingerprint) :
    SecondPassOk d newG olds created i2 t2 := by
  set olds1 := olds.map (fun g => { g with replicas := 0 }) with holds1def
  have holds1shape : ∀ x ∈ olds1, ∃ g ∈ olds, x = { g with replicas := 0 } := by
    intro x hx
    rw [holds1def] at hx
    rcases List.mem_map.mp hx with ⟨g, hg, hEq⟩
    exact ⟨g, hg, hEq.symm⟩
  have holds1fp : ∀ x ∈ olds1, x.fingerprint ≠ d.fingerprint := by
    intro x hx
    rcases holds1shape x hx with ⟨g, hg, hEq⟩
    rw [hEq]
    exact holds g hg
  have holds1t0 : ∀ x ∈ olds1, x.replicas = 0 := by
    intro x hx
    rcases holds1shape x hx with ⟨g, _, hEq⟩
    rw [hEq]
  have hkeptfp : ∀ y ∈ (pruneRevisions d.revisionHistoryLimit olds1).1,
      y.fingerprint ≠ d.fingerprint :=
    fun y hy => holds1fp y (pruneRevisions_kept_subset hy)
  have hkept0 : ∀ y ∈ (pruneRevisions d.revisionHistoryLimit olds1).1,
      y.replicas = 0 :=
    fun y hy => holds1t0 y (pruneRevisions_kept_subset hy)
  have hmapid : (pruneRevisions d.revisionHistoryLimit olds1).1.map
      (fun g => { g with replicas := 0 }) =
        (pruneRevisions d.revisionHistoryLimit olds1).1 := by
    have h1 : (pruneRevisions d.revisionHistoryLimit olds1).1.map
        (fun g => { g with replicas := 0 }) =
          (pruneRevisions d.revisionHistoryLimit olds1).1.map (fun g => g) :=
      List.map_congr_left (fun g hg => copy_zero_eq (hkept0 g hg))
    rw [h1, List.map_id']
  have hzerofilter : ((pruneRevisions d.revisionHistoryLimit olds1).1.filter
      (fun g => g.replicas != 0)).length = 0 := by
    have : (pruneRevisions d.revisionHistoryLimit olds1).1.filter
        (fun g => g.replicas != 0) = [] := by
      rw [List.filter_eq_nil_iff]
      intro a ha
      simp [hkept0 a ha]
    rw [this]
    rfl
  by_cases hall : olds.all (fun g => g.statusReplicas == 0) = true
  · have hs := scaleStep_recreate_raise newG hstrat hall
    have hgens1 : (rollAfterEnsure d newG olds created).gens =
        { newG with replicas := d.replicas } ::
          (pruneRevisions d.revisionHistoryLimit olds1).1 := by
      unfold rollAfterEnsure
      simp only [hs]
    have hnewGen1 : (rollAfterEnsure d newG olds created).newGen =
        { newG with replicas := d.replicas } := by
      unfold rollAfterEnsure
      simp only [hs]
    have hkeptsr : ∀ y ∈ (pruneRevisions d.revisionHistoryLimit olds1).1,
        y.statusReplicas = 0 := by
      intro y hy
      rcases holds1shape y (pruneRevisions_kept_subset hy) with ⟨g, hg, hEq⟩
      rw [hEq]
      show g.statusReplicas = 0
      have := List.all_eq_true.mp hall g hg
      simpa using this
    have hall2 : (pruneRevisions d.revisionHistoryLimit olds1).1.all
        (fun g => g.statusReplicas == 0) = true :=
      List.all_eq_true.mpr (fun g hg => by simp [hkeptsr g hg])
    have hs2 := scaleStep_recreate_raise { newG with replicas := d.replicas }
      hstrat hall2
    unfold SecondPassOk
    rw [hgens1, hnewGen1,
      reconcile_cons d { newG with replicas := d.replicas }
        (pruneRevisions d.revisionHistoryLimit olds1).1 i2 t2 hnewfp hkeptfp]
    refine ⟨rollAfterEnsure_createCount _ _ _ _, ?_, ?_, ?_⟩
    · show (rollAfterEnsure d { newG with replicas := d.replicas }
        (pruneRevisions d.revisionHistoryLimit olds1).1 0).deleteCount = 0
      unfold rollAfterEnsure
      simp only [hs2]
      rw [hmapid, pruneRevisions_idem]
      rfl
    · show (rollAfterEnsure d { newG with replicas := d.replicas }
        (pruneRevisions d.revisionHistoryLimit olds1).1 0).updateCount ≤ 1
      unfold rollAfterEnsure
      simp only [hs2]
      show ((pruneRevisions d.revisionHistoryLimit olds1).1.filter
          (fun g => g.replicas != 0)).length +
        (if (d.replicas != d.replicas) = true then 1 else 0) ≤ 1
      rw [hzerofilter]
      simp
    · show ({ newG with replicas := d.replicas } : Generation).replicas ≤
        (rollAfterEnsure d { newG with replicas := d.replicas }
          (pruneRevisions d.revisionHistoryLimit olds1).1 0).newGen.replicas
      unfold rollAfterEnsure
      simp only [hs2]
      show d.replicas ≤ d.replicas
      exact Nat.le_refl _
  · rw [Bool.not_eq_true] at hall
    have hs := scaleStep_recreate_wait newG hstrat hall
    have hgens1 : (rollAfterEnsure d newG olds created).gens =
        newG :: (pruneRevisions d.revisionHistoryLimit olds1).1 := by
      unfold rollAfterEnsure
      simp only [hs]
    have hnewGen1 : (rollAfterEnsure d newG olds created).newGen = newG := by
      unfold rollAfterEnsure
      simp only [hs]
    have hsrpend : ∃ g ∈ olds, g.statusReplicas ≠ 0 := by
      by_contra hcon
      push_neg at hcon
      have : olds.all (fun g => g.statusReplicas == 0) = true :=
        List.all_eq_true.mpr (fun g hg => by simpa using hcon g hg)
      rw [this] at hall
      cases hall
    have hall2 : (pruneRevisions d.revisionHistoryLimit olds1).1.all
        (fun g => g.statusReplicas == 0) = false := by
      rcases hsrpend with ⟨g, hg, hgsr⟩
      have hgm : ({ g with replicas := 0 } : Generation) ∈ olds1 := by
        rw [holds1def]
        exact List.mem_map_of_mem _ hg
      have hnc : isPruneCandidate { g with replicas := 0 } = false := by
        simp [isPruneCandidate, hgsr]
      have hmemk := pruneRevisions_keeps_active d.revisionHistoryLimit hgm hnc
      rcases hallb : (pruneRevisions d.revisionHistoryLimit olds1).1.all
          (fun g => g.statusReplicas == 0) with _ | _
      · rfl
      · exfalso
        have := List.all_eq_true.mp hallb _ hmemk
        exact hgsr (by simpa using this)
    have hs2 := scaleStep_recreate_wait newG hstrat hall2
    unfold SecondPassOk
    rw [hgens1, hnewGen1,
      reconcile_cons d newG
        (pruneRevisions d.revisionHistoryLimit olds1).1 i2 t2 hnewfp hkeptfp]
    refine ⟨rollAfterEnsure_createCount _ _ _ _, ?_, ?_, ?_⟩
    · show (rollAfterEnsure d newG
        (pruneRevisions d.revisionHistoryLimit olds1).1 0).deleteCount = 0
      unfold rollAfterEnsure
      simp only [hs2]
      rw [hmapid, pruneRevisions_idem]
      rfl
    · show (rollAfterEnsure d newG
        (pruneRevisions d.revisionHistoryLimit olds1).1 0).updateCount ≤ 1
      unfold rollAfterEnsure
      simp only [hs2]
      rw [hzerofilter]
      omega
    · show newG.replicas ≤ (rollAfterEnsure d newG
        (pruneRevisions d.revisionHistoryLimit olds1).1 0).newGen.replicas
      unfold rollAfterEnsure
      simp only [hs2]
      exact Nat.le_refl _

theorem secondPass_core (d : MDeployment) (newG : Generation)
    (olds : List Generation) (created i2 t2 : Nat)
    (hnewfp : newG.fingerprint = d.fingerprint)
    (holds : ∀ x ∈ olds, x.fingerprint ≠ d.fingerprint)
    (ha : newG.statusAvailable ≤ newG.replicas)
    (hr : newG.replicas ≤ d.replicas) :
    SecondPassOk d newG olds created i2 t2 := by
  rcases hstrat : d.strategy with ⟨ms, mu⟩ | _
  · by_cases hA : olds.all (fun g => g.replicas == 0) = true
    · exact secondPass_roll_bypass hstrat newG olds created i2 t2 hnewfp holds hA
    · rw [Bool.not_eq_true] at hA
      by_cases hB : resolveSurge ms d.replicas = 0 ∧
          resolveUnavailable mu d.replicas = 0 ∧ d.replicas ≠ 0
      · exact secondPass_roll_error hstrat newG olds created i2 t2 hnewfp
          holds hA hB
      · by_cases hC : newG.replicas ≤ newG.statusAvailable ∧
            0 < totalTargets olds + newG.replicas - d.replicas
        · exact secondPass_roll_down hstrat newG olds created i2 t2 hnewfp
            holds ha hr hA hB hC
        · exact secondPass_roll_nodown hstrat newG olds created i2 t2 hnewfp
            holds ha hr hA hB hC
  · exact secondPass_recreate hstrat newG olds created i2 t2 hnewfp holds

end SecondPass

section ClaimC8

/-- Counterexample to C8 as stated: in the R = 2, maxSurge = 1,
maxUnavailable = 0 scenario, from the mid-rollout state where the new
generation's status has just caught up (new target 1 available 1, old
target 2 available 2), the first reconcile scales the old generation down
(one update), and a second reconcile with no intervening external change
still issues one update (the freed surge capacity scales the new
generation up) — not zero mutations. -/
theorem reconcile_second_pass_counterexample :
    (reconcile dScenario [newGenAt 1 1 1, oldGenAt 2 2 2] 99 99).updateCount
      = 1 ∧
    (reconcile dScenario
      (reconcile dScenario [newGenAt 1 1 1, oldGenAt 2 2 2] 99 99).gens
      98 98).updateCount = 1 := by
  decide

/-- C8 (amended): Reconciliation's output depends only on the currently
observed state (it is a function of the state), but a second pass right
after a first one is not always mutation-free.  What holds: for every
observed state with at most one new generation, whose status has not
overshot its target and whose target does not exceed R, the second pass
issues no create and no delete calls and at most one update call, and
that update can only raise the new generation's target (old generations
are only ever scaled on the first pass).  The target-within-R hypothesis
is necessary: after R is lowered below the new generation's target, the
second pass's single update lowers that target toward R. -/
theorem reconcile_second_pass (d : MDeployment) (gens : List Generation)
    (i1 t1 i2 t2 : Nat)
    (hcount : (newGens d gens).length ≤ 1)
    (hnew : ∀ g ∈ newGens d gens,
      g.statusAvailable ≤ g.replicas ∧ g.replicas ≤ d.replicas) :
    (reconcile d (reconcile d gens i1 t1).gens i2 t2).createCount = 0 ∧
    (reconcile d (reconcile d gens i1 t1).gens i2 t2).deleteCount = 0 ∧
    (reconcile d (reconcile d gens i1 t1).gens i2 t2).updateCount ≤ 1 ∧
    (reconcile d gens i1 t1).newGen.replicas ≤
      (reconcile d (reconcile d gens i1 t1).gens i2 t2).newGen.replicas := by
  rcases hpick : pickNewGen d gens with _ | g
  · rw [reconcile_eq_none i1 t1 hpick]
    exact secondPass_core d _ gens 1 i2 t2 rfl (reconcile_olds_of_none hpick)
      (Nat.le_refl 0) (Nat.zero_le _)
  · have hone := pickNewGen_unique hcount hpick
    have hgm := pickNewGen_mem hpick
    have hgi := hnew g (by rw [hone]; exact List.mem_singleton.mpr rfl)
    rw [reconcile_eq_some i1 t1 hpick]
    have herased : newGens d (gens.erase g) = [] := newGens_erase_nil hgm.1 hone
    have holds : ∀ x ∈ gens.erase g, x.fingerprint ≠ d.fingerprint := by
      intro x hx hEq
      have : x ∈ newGens d (gens.erase g) := mem_newGens.mpr ⟨hx, hEq⟩
      rw [herased] at this
      cases this
    exact secondPass_core d g (gens.erase g) 0 i2 t2 hgm.2 holds hgi.1 hgi.2

/-- Witness for the amended C8 at the counterexample state: the second
pass performs no create, no delete, and at most one update. -/
theorem reconcile_second_pass_witness :
    (reconcile dScenario
      (reconcile dScenario [newGenAt 1 1 1, oldGenAt 2 2 2] 99 99).gens
      98 98).createCount = 0 ∧
    (reconcile dScenario
      (reconcile dScenario [newGenAt 1 1 1, oldGenAt 2 2 2] 99 99).gens
      98 98).deleteCount = 0 ∧
    (reconcile dScenario
      (reconcile dScenario [newGenAt 1 1 1, oldGenAt 2 2 2] 99 99).gens
      98 98).updateCount ≤ 1 :=
  ⟨(reconcile_second_pass dScenario [newGenAt 1 1 1, oldGenAt 2 2 2]
      99 99 98 98 (by decide) (by decide)).1,
    (reconcile_second_pass dScenario [newGenAt 1 1 1, oldGenAt 2 2 2]
      99 99 98 98 (by decide) (by decide)).2.1,
    (reconcile_second_pass dScenario [newGenAt 1 1 1, oldGenAt 2 2 2]
      99 99 98 98 (by decide) (by decide)).2.2.1⟩

end ClaimC8

end MachineDeployment
